import Mathlib

/-!
Verification of the EvalTreeJit decision-tree JIT compiler core
(src/CompiledResolver.cpp, src/DecisionTree.h).

The development shallowly embeds the code-generation algorithms and the
runtime behaviour of the code they emit:

* pure index arithmetic and the bitmap/variant builders are translated
  directly into Lean functions;
* the runtime behaviour of an emitted evaluator function (condition-vector
  computation followed by a switch over case constants) is modelled as a
  function from inputs to `Option ℕ` — `none` models reaching the
  semantically unreachable default arm of the switch;
* IEEE floats are modelled as `Option ℚ`, with `none` playing the role of
  NaN; the LLVM ordered comparisons `FCmpOLT`/`FCmpOGT` yield `false`
  whenever an operand is `none`.  The `sqrt`/`log` math intrinsics are
  abstract parameters (`sqrtSem`, `lnSem`): every theorem holds for any
  interpretation of them, because compiled and interpreted evaluation use
  the same per-node predicate.
-/

/-- Modelled from the spec: helper from the repository's Utils.h, which is
not under src/.  `PowerOf2 n = 2^n` (spec §3 and §4.1 use plain powers of
two). -/
def PowerOf2 (n : ℕ) : ℕ := 2 ^ n

/-- Modelled from the spec: helper from the repository's Utils.h, which is
not under src/.  `TreeNodes ℓ = 2^ℓ − 1` is the number of nodes of a
perfect tree of `ℓ` levels, equivalently the first global index on
level `ℓ` (spec §3: "the first index on level ℓ is 2^ℓ − 1"). -/
def TreeNodes (levels : ℕ) : ℕ := 2 ^ levels - 1

/-- Modelled from the spec: helper from the repository's Utils.h, which is
not under src/.  `Log2 n = ⌊log₂ n⌋` (spec §3: "the level of index i is
⌊log₂(i+1)⌋"). -/
def Log2 (n : ℕ) : ℕ := Nat.log2 n

/-- Node operation enum, from DecisionTree.h. -/
inductive OperationType where
  | Bypass
  | Sqrt
  | Ln
deriving DecidableEq

/-- Node comparator enum, from DecisionTree.h. -/
inductive ComparatorType where
  | LessThan
  | GreaterThan
deriving DecidableEq

/-- Model of a float value: `some q` is an ordinary (rational-valued)
float, `none` is NaN. -/
abbrev FloatVal := Option ℚ

/-- TreeNode, from DecisionTree.h.  Child indices are stored in the node,
as in the source. -/
structure TreeNode where
  Bias : FloatVal
  Op : OperationType
  Comp : ComparatorType
  DataSetFeatureIdx : ℕ
  TrueChildNodesIdx : ℕ
  FalseChildNodesIdx : ℕ

/-- Model of DecisionTree (an index-to-node mapping): a total function.
The code only reads nodes that exist in the map, so a total model is
adequate. -/
abbrev DecisionTree_t := ℕ → TreeNode

/-- Perfect-tree layout of the stored child links: node `i` has true
child `2i+2` and false child `2i+1`, as produced by makeDecisionTree in
DecisionTree.h and as stated in spec §3. -/
def PerfectChildren (tree : DecisionTree_t) : Prop :=
  ∀ i : ℕ, (tree i).TrueChildNodesIdx = 2 * i + 2 ∧ (tree i).FalseChildNodesIdx = 2 * i + 1

/-- Model of the input vector: a feature index to float-value map. -/
abbrev DataSet_t := ℕ → FloatVal

/-- LLVM `FCmpOLT` (ordered less-than): false whenever an operand is
NaN. -/
def fcmpOLT : FloatVal → FloatVal → Bool
  | some a, some b => decide (a < b)
  | _, _ => false

/-- LLVM `FCmpOGT` (ordered greater-than): false whenever an operand is
NaN. -/
def fcmpOGT : FloatVal → FloatVal → Bool
  | some a, some b => decide (a > b)
  | _, _ => false

/-- Runtime value of the code emitted by CompiledResolver::emitOperator:
Bypass is the identity, Sqrt and Ln call the native unary intrinsics,
which the embedding keeps abstract (`sqrtSem`, `lnSem`). -/
def emitOperator (sqrtSem lnSem : FloatVal → FloatVal) :
    OperationType → FloatVal → FloatVal
  | OperationType.Bypass, value => value
  | OperationType.Sqrt, value => sqrtSem value
  | OperationType.Ln, value => lnSem value

/-- Runtime value of the code emitted by CompiledResolver::emitComparison:
an ordered float comparison of the operand against the node bias. -/
def emitComparison (comp : ComparatorType) (bias : FloatVal) (value : FloatVal) : Bool :=
  match comp with
  | ComparatorType.LessThan => fcmpOLT value bias
  | ComparatorType.GreaterThan => fcmpOGT value bias

/-- Runtime value of the code emitted by
CompiledResolver::emitSingleNodeEvaluaton: load the node's feature from
the input, apply the operation, compare against the bias. -/
def emitSingleNodeEvaluaton (sqrtSem lnSem : FloatVal → FloatVal)
    (node : TreeNode) (dataSet : DataSet_t) : Bool :=
  emitComparison node.Comp node.Bias
    (emitOperator sqrtSem lnSem node.Op (dataSet node.DataSetFeatureIdx))

/-- CompiledResolver::getNodeIdxForSubtreeBitOffset, translated
statement-by-statement from src/CompiledResolver.cpp lines 143-159.
The `subtreeLevels` argument is unused in the body, exactly as in the
source. -/
def getNodeIdxForSubtreeBitOffset (subtreeRootIdx : ℕ) (subtreeLevels : ℕ)
    (bitOffset : ℕ) : ℕ :=
  let subtreeRootIdxLevel := Log2 (subtreeRootIdx + 1)
  let nodeLevelInSubtree := Log2 (bitOffset + 1)
  let firstIdxOnRootLevel := TreeNodes subtreeRootIdxLevel
  let firstIdxOnNodeLevel := TreeNodes (subtreeRootIdxLevel + nodeLevelInSubtree)
  let subtreeRootIdxOffset := subtreeRootIdx - firstIdxOnRootLevel
  let numSubtreeNodesOnLevel := PowerOf2 nodeLevelInSubtree
  let firstSubtreeIdxOnNodeLevel :=
    firstIdxOnNodeLevel + subtreeRootIdxOffset * numSubtreeNodesOnLevel
  let nodeOffsetInSubtreeLevel := bitOffset - (PowerOf2 nodeLevelInSubtree - 1)
  firstSubtreeIdxOnNodeLevel + nodeOffsetInSubtreeLevel

/-- Closed formula of spec §4.1 exactly as quoted in the claim: with
ℓ = ⌊log₂(bitOffset+1)⌋ and L_R = ⌊log₂(R+1)⌋, the node index is
(2^(L_R+ℓ) − 1) + (R − (2^L_R − 1))·2^ℓ + (bitOffset − (2^ℓ − 1)). -/
def specNodeIdxFormula (R : ℕ) (bitOffset : ℕ) : ℕ :=
  (2 ^ (Log2 (R + 1) + Log2 (bitOffset + 1)) - 1) +
    (R - (2 ^ Log2 (R + 1) - 1)) * 2 ^ Log2 (bitOffset + 1) +
    (bitOffset - (2 ^ Log2 (bitOffset + 1) - 1))

/-- Association list built by the loop of emitComputeConditionVector:
`bitOffsets[nodeIdx] = bitOffset` for every bit offset of the subtree
(model of the `subtreeNodeIdxBitOffsets` unordered_map). -/
def subtreeNodeIdxBitOffsets (rootNodeIdx : ℕ) (subtreeLevels : ℕ)
    (numNodes : ℕ) : List (ℕ × ℕ) :=
  (List.range numNodes).map
    (fun bitOffset => (getNodeIdxForSubtreeBitOffset rootNodeIdx subtreeLevels bitOffset, bitOffset))

/-- Lookup function for the bit-offset map (model of
`nodeIdxBitOffsets.at(nodeIdx)`; the default is never reached on the
indices the code queries). -/
def bitOffsetOfNode (rootNodeIdx : ℕ) (subtreeLevels : ℕ) (numNodes : ℕ) : ℕ → ℕ :=
  fun nodeIdx =>
    ((subtreeNodeIdxBitOffsets rootNodeIdx subtreeLevels numNodes).lookup nodeIdx).getD 0

/-- CompiledResolver::buildSubtreeLeafNodePathsBitsMapsRecursively
(src/CompiledResolver.cpp lines 161-196), in functional form.  The C++
appends to a shared vector and then retroactively marks the most recent
`2^(remainingLevels−1)` entries with `thisBitOffset ↦ true` (after the
true-child recursion) resp. `false` (after the false-child recursion);
since each recursive call appends exactly that many descriptors, this is
the same as mapping the marking over each recursive result.  Path maps
are association lists (model of the per-leaf unordered_map). -/
def buildSubtreeLeafNodePathsBitsMapsRecursively (tree : DecisionTree_t)
    (bitOffsets : ℕ → ℕ) (nodeIdx : ℕ) :
    (remainingLevels : ℕ) → List (ℕ × List (ℕ × Bool))
  | 0 => [(nodeIdx, [])]
  | remainingLevels + 1 =>
    let thisBitOffset := bitOffsets nodeIdx
    ((buildSubtreeLeafNodePathsBitsMapsRecursively tree bitOffsets
        (tree nodeIdx).TrueChildNodesIdx remainingLevels).map
      (fun p => (p.1, (thisBitOffset, true) :: p.2))) ++
    ((buildSubtreeLeafNodePathsBitsMapsRecursively tree bitOffsets
        (tree nodeIdx).FalseChildNodesIdx remainingLevels).map
      (fun p => (p.1, (thisBitOffset, false) :: p.2)))

/-- CompiledResolver::buildFixedConditionVectorTemplate
(src/CompiledResolver.cpp lines 198-208): OR together `bit << offset`
over the path-bits map. -/
def buildFixedConditionVectorTemplate (leafNodePathBitsMap : List (ℕ × Bool)) : ℕ :=
  leafNodePathBitsMap.foldl
    (fun fixedBitsVector mapEntry =>
      fixedBitsVector ||| ((if mapEntry.2 then 1 else 0) <<< mapEntry.1)) 0

/-- CompiledResolver::buildCanonicalConditionVectorVariantsRecursively
(src/CompiledResolver.cpp lines 210-231): for each variable bit, emit the
true variation first, then the false variation. -/
def buildCanonicalConditionVectorVariantsRecursively (conditionVector : ℕ) :
    (variableBitOffsets : List ℕ) → List ℕ
  | [] => [conditionVector]
  | bitToVary :: rest =>
    buildCanonicalConditionVectorVariantsRecursively
      (conditionVector ||| (1 <<< bitToVary)) rest ++
    buildCanonicalConditionVectorVariantsRecursively conditionVector rest

/-- Variable bit offsets collected by buildCanonicalConditionVectorVariants:
all bit offsets below `conditionVectorSize` that are absent from the
leaf's path-bits map. -/
def variableBitOffsetsOf (conditionVectorSize : ℕ)
    (leafNodePathBitsMap : List (ℕ × Bool)) : List ℕ :=
  (List.range conditionVectorSize).filter
    (fun i => (leafNodePathBitsMap.lookup i).isNone)

/-- CompiledResolver::buildCanonicalConditionVectorVariants
(src/CompiledResolver.cpp lines 233-254). -/
def buildCanonicalConditionVectorVariants (conditionVectorSize : ℕ)
    (fixedBitsTemplate : ℕ) (leafNodePathBitsMap : List (ℕ × Bool)) : List ℕ :=
  let variableBitOffsets := variableBitOffsetsOf conditionVectorSize leafNodePathBitsMap
  if variableBitOffsets.isEmpty then
    [fixedBitsTemplate]
  else
    buildCanonicalConditionVectorVariantsRecursively fixedBitsTemplate variableBitOffsets

/-- Runtime value of the condition vector computed by the code emitted in
CompiledResolver::emitComputeConditionVector (src/CompiledResolver.cpp
lines 256-285): for each bit offset, evaluate the node resolved through
getNodeIdxForSubtreeBitOffset, zero-extend the boolean, shift left and
OR-accumulate.  The shift amount is encoded in the source as a 6-bit
`APInt(6, bitOffset)`, hence the `% 64`. -/
def emitComputeConditionVector (sqrtSem lnSem : FloatVal → FloatVal)
    (tree : DecisionTree_t) (rootNodeIdx : ℕ) (subtreeLevels : ℕ)
    (dataSet : DataSet_t) (numNodes : ℕ) : ℕ :=
  (List.range numNodes).foldl
    (fun conditionVector bitOffset =>
      let nodeIdx := getNodeIdxForSubtreeBitOffset rootNodeIdx subtreeLevels bitOffset
      let evalResultBit := emitSingleNodeEvaluaton sqrtSem lnSem (tree nodeIdx) dataSet
      let vectorBit := (if evalResultBit then 1 else 0) <<< (bitOffset % 64)
      conditionVector ||| vectorBit) 0

/-- Runtime behaviour of one switch emitted by
CompiledResolver::emitSubtreeSwitchesRecursively (src/CompiledResolver.cpp
lines 287-366), without the nested continuation: compute the condition
vector of the `switchLevels`-deep subtree, then dispatch it to the target
block of the leaf descriptor one of whose case constants (canonical
condition-vector variants) equals it.  The result is the leaf descriptor's
node index; `none` models falling through to the default arm, which by
construction is unreachable. -/
def subtreeSwitchDispatch (sqrtSem lnSem : FloatVal → FloatVal)
    (tree : DecisionTree_t) (dataSet : DataSet_t)
    (switchRootNodeIdx : ℕ) (switchLevels : ℕ) : Option ℕ :=
  let numNodes := TreeNodes switchLevels
  let conditionVector :=
    emitComputeConditionVector sqrtSem lnSem tree switchRootNodeIdx switchLevels dataSet numNodes
  let bitOffsets := bitOffsetOfNode switchRootNodeIdx switchLevels numNodes
  let leafNodePathBitsMaps :=
    buildSubtreeLeafNodePathsBitsMapsRecursively tree bitOffsets switchRootNodeIdx switchLevels
  leafNodePathBitsMaps.findSome?
    (fun leafNodeInfo =>
      if conditionVector ∈
          buildCanonicalConditionVectorVariants numNodes
            (buildFixedConditionVectorTemplate leafNodeInfo.2) leafNodeInfo.2
      then some leafNodeInfo.1
      else none)

/-- Runtime behaviour of the full nest of switches emitted by
CompiledResolver::emitSubtreeSwitchesRecursively: while `nestedSwitches >
0`, the case block selected by the dispatch runs another
`switchLevels`-deep switch rooted at its leaf index. -/
def emitSubtreeSwitchesRecursively (sqrtSem lnSem : FloatVal → FloatVal)
    (tree : DecisionTree_t) (dataSet : DataSet_t) (switchLevels : ℕ) :
    (switchRootNodeIdx : ℕ) → (nestedSwitches : ℕ) → Option ℕ
  | switchRootNodeIdx, 0 =>
    subtreeSwitchDispatch sqrtSem lnSem tree dataSet switchRootNodeIdx switchLevels
  | switchRootNodeIdx, nestedSwitches + 1 =>
    (subtreeSwitchDispatch sqrtSem lnSem tree dataSet switchRootNodeIdx switchLevels).bind
      (fun leafNodeIdx =>
        emitSubtreeSwitchesRecursively sqrtSem lnSem tree dataSet switchLevels
          leafNodeIdx nestedSwitches)

/-- Runtime behaviour of one evaluator function emitted by
CompiledResolver::emitSubtreeEvaluation (src/CompiledResolver.cpp lines
368-378): `subtreeLevels / switchLevels` nested switches of
`switchLevels` levels each. -/
def emitSubtreeEvaluation (sqrtSem lnSem : FloatVal → FloatVal)
    (tree : DecisionTree_t) (dataSet : DataSet_t)
    (rootNodeIdx : ℕ) (subtreeLevels : ℕ) (switchLevels : ℕ) : Option ℕ :=
  emitSubtreeSwitchesRecursively sqrtSem lnSem tree dataSet switchLevels
    rootNodeIdx (subtreeLevels / switchLevels - 1)

/-- Node indices for which compileEvaluators (src/CompiledResolver.cpp
lines 439-461) emits an evaluator: for each level 0, fd, 2·fd, … below
`treeDepth`, every node index from `TreeNodes level` (inclusive) to
`TreeNodes (level+1)` (exclusive), i.e. `PowerOf2 level` many. -/
def compiledNodeIndices (treeDepth : ℕ) (nodeLevelsPerFunction : ℕ) : List ℕ :=
  ((List.range ((treeDepth + nodeLevelsPerFunction - 1) / nodeLevelsPerFunction)).map
    (fun k => k * nodeLevelsPerFunction)).flatMap
    (fun level => List.range' (TreeNodes level) (PowerOf2 level))

/-- CompiledResolver::getNumCompiledEvaluators (src/CompiledResolver.cpp
lines 525-534), translated directly (including the rounding-up division
computing `evaluatorDepth`). -/
def getNumCompiledEvaluators (treeDepth : ℕ) (compiledFunctionDepth : ℕ) : ℕ :=
  let evaluatorDepth := (treeDepth + compiledFunctionDepth - 1) / compiledFunctionDepth
  (List.range evaluatorDepth).foldl
    (fun expectedEvaluators i => expectedEvaluators + PowerOf2 (compiledFunctionDepth * i)) 0

/-- Runtime behaviour of CompiledResolver::run (src/CompiledResolver.cpp
lines 51-63) over the compiled evaluators, with explicit fuel: while
`idx < firstResultIdx`, look the evaluator up in the compiled map (a
missing key, i.e. a failing `CompiledEvaluators.at`, gives `none`) and
continue from its result. -/
def runLoopO (evaluators : ℕ → Option ℕ) (firstResultIdx : ℕ) :
    (fuel : ℕ) → (idx : ℕ) → Option ℕ
  | 0, idx => if idx < firstResultIdx then none else some idx
  | fuel + 1, idx =>
    if idx < firstResultIdx then
      (evaluators idx).bind (fun nextIdx => runLoopO evaluators firstResultIdx fuel nextIdx)
    else some idx

/-- End-to-end runtime behaviour of the compiled resolver: run the while
loop of CompiledResolver::run starting at index 0, where the evaluator
map contains exactly the functions compileEvaluators emitted
(`compiledNodeIndices`), and each one behaves as the code emitted by
emitSubtreeEvaluation for its root.  `treeDepth / functionDepth`
iterations suffice for a tree of `treeDepth` levels. -/
def runCompiled (sqrtSem lnSem : FloatVal → FloatVal)
    (tree : DecisionTree_t) (dataSet : DataSet_t)
    (treeDepth : ℕ) (functionDepth : ℕ) (switchDepth : ℕ) : Option ℕ :=
  runLoopO
    (fun idx =>
      if idx ∈ compiledNodeIndices treeDepth functionDepth then
        emitSubtreeEvaluation sqrtSem lnSem tree dataSet idx functionDepth switchDepth
      else none)
    (TreeNodes treeDepth) (treeDepth / functionDepth) 0

/-- Reference interpretive step, as stated in the claims: from internal
node `i`, go to the true child `2i+2` when the node predicate holds and
to the false child `2i+1` otherwise.  The node predicate is abstracted to
a function `π : ℕ → Bool`. -/
def interpStep (π : ℕ → Bool) (i : ℕ) : ℕ :=
  if π i then 2 * i + 2 else 2 * i + 1

/-- Reference interpretive traversal for a fixed number of levels. -/
def interpTraverse (π : ℕ → Bool) : (i : ℕ) → (levels : ℕ) → ℕ
  | i, 0 => i
  | i, levels + 1 => interpTraverse π (interpStep π i) levels

/-- Reference interpretive traversal in while-loop form: starting from
`idx`, step while `idx < firstResultIdx` (fuelled). -/
def interpRun (π : ℕ → Bool) (firstResultIdx : ℕ) : (fuel : ℕ) → (idx : ℕ) → ℕ
  | 0, idx => idx
  | fuel + 1, idx =>
    if idx < firstResultIdx then interpRun π firstResultIdx fuel (interpStep π idx) else idx

/-- Predicate of a tree node on a concrete input: exactly the boolean the
emitted single-node evaluation computes (and likewise the reference
interpreter: comparator(op(input[featureIdx]), bias)). -/
def nodePredicate (sqrtSem lnSem : FloatVal → FloatVal)
    (tree : DecisionTree_t) (dataSet : DataSet_t) : ℕ → Bool :=
  fun i => emitSingleNodeEvaluaton sqrtSem lnSem (tree i) dataSet

/-- Internal nodes of the `k`-level subtree rooted at `nodeIdx`,
following the stored child links (the nodes whose predicates feed the
subtree's condition vector). -/
def subtreeInternalNodes (tree : DecisionTree_t) (nodeIdx : ℕ) : (levels : ℕ) → List ℕ
  | 0 => []
  | levels + 1 =>
    nodeIdx ::
      (subtreeInternalNodes tree (tree nodeIdx).TrueChildNodesIdx levels ++
        subtreeInternalNodes tree (tree nodeIdx).FalseChildNodesIdx levels)

/-- Leaf reached from `nodeIdx` after `levels` levels when descending in
the deterministic true-first, false-second order: rank 0 is the all-true
path, and for `i < 2^(levels−1)` the rank-`i` leaf lies under the true
child.  This formalises the traversal order the claims describe. -/
def subtreeLeafByRank (tree : DecisionTree_t) (nodeIdx : ℕ) :
    (levels : ℕ) → (rank : ℕ) → ℕ
  | 0, _ => nodeIdx
  | levels + 1, rank =>
    if rank < 2 ^ levels then
      subtreeLeafByRank tree (tree nodeIdx).TrueChildNodesIdx levels rank
    else
      subtreeLeafByRank tree (tree nodeIdx).FalseChildNodesIdx levels (rank - 2 ^ levels)

/-- Path-bits map `m` is satisfied by the bit assignment `σ` when every
recorded ancestor bit has the required value. -/
def matchesMap (σ : ℕ → Bool) (m : List (ℕ × Bool)) : Prop :=
  ∀ e ∈ m, σ e.1 = e.2

/-- Bit width of the stack slot allocated for the condition vector in
emitComputeConditionVector: `Type::getInt64Ty`, i.e. 64 bits
(src/CompiledResolver.cpp line 261). -/
def conditionVectorAllocaWidth : ℕ := 64

/-- Bit width of the case constants added to the emitted switch:
`IntegerType::get(Ctx, numNodes + 1)` (src/CompiledResolver.cpp line
356). -/
def switchCaseTypeWidth (numNodes : ℕ) : ℕ := numNodes + 1

/-- Model of the compileEvaluators pipeline (src/CompiledResolver.cpp
lines 439-523) at the granularity relevant to error handling: for every
node index an evaluator is emitted, `llvm::verifyFunction` is invoked and
its boolean result (`true` = the function is broken) is discarded (line
457); afterwards the module is submitted to the JIT unconditionally.
Returns the processed node list (`processedNodes`, built with
`push_front`, hence reversed) and whether the module was submitted. -/
def compileEvaluatorsPipeline (verifyFunction : ℕ → Bool) (nodeIdxs : List ℕ) :
    List ℕ × Bool :=
  let processedNodes :=
    nodeIdxs.foldl
      (fun processed nodeIdx =>
        let _verifyResult := verifyFunction nodeIdx
        nodeIdx :: processed) []
  (processedNodes, true)

/-- Abstract evaluator family satisfying the compiled-artifact contract of
spec §3: the evaluator registered at internal index `i` (a node on a
level that is a multiple of `functionDepth`) returns the node index
reached after traversing exactly `functionDepth` levels below `i`. -/
def EvaluatorContract (π : ℕ → Bool) (evaluators : ℕ → ℕ)
    (treeDepth : ℕ) (functionDepth : ℕ) : Prop :=
  ∀ i : ℕ, i < TreeNodes treeDepth → Log2 (i + 1) % functionDepth = 0 →
    evaluators i = interpTraverse π i functionDepth

/-- CompiledResolver::run over an abstract total evaluator family, with
explicit fuel: while `idx < firstResultIdx`, replace `idx` by
`evaluators idx`. -/
def runAbstract (evaluators : ℕ → ℕ) (firstResultIdx : ℕ) :
    (fuel : ℕ) → (idx : ℕ) → ℕ
  | 0, idx => idx
  | fuel + 1, idx =>
    if idx < firstResultIdx then
      runAbstract evaluators firstResultIdx fuel (evaluators idx)
    else idx

/-- Index reached after `j` iterations of the run loop (the trace of
indices at which CompiledResolver::run performs its map lookups). -/
def runTrace (evaluators : ℕ → ℕ) (firstResultIdx : ℕ) : (j : ℕ) → ℕ
  | 0 => 0
  | j + 1 =>
    let idx := runTrace evaluators firstResultIdx j
    if idx < firstResultIdx then evaluators idx else idx

/-- Bit offset (within a subtree's breadth-first numbering) of the false
child of the node at bit offset `b`: the left slot on the next subtree
level. -/
def falseChildBitOffset (b : ℕ) : ℕ :=
  2 ^ (Log2 (b + 1) + 1) - 1 + 2 * (b + 1 - 2 ^ Log2 (b + 1))

/-- Bit offset of the true child of the node at bit offset `b`: the right
slot next to the false child. -/
def trueChildBitOffset (b : ℕ) : ℕ := falseChildBitOffset b + 1

/-- Concrete perfect tree used to instantiate universally quantified
theorems on explicit inputs: every node compares feature 0 against 1/2
with LessThan, with the perfect child layout. -/
def sampleTree : DecisionTree_t := fun i =>
  { Bias := some (1 / 2), Op := OperationType.Bypass, Comp := ComparatorType.LessThan,
    DataSetFeatureIdx := 0, TrueChildNodesIdx := 2 * i + 2, FalseChildNodesIdx := 2 * i + 1 }

/-- Concrete constant input vector (feature value 1/4 everywhere). -/
def sampleDataSet : DataSet_t := fun _ => some (1 / 4)

/-- Concrete all-NaN input vector. -/
def sampleNaNDataSet : DataSet_t := fun _ => none

/-! ## Arithmetic lemmas about `Log2` and the subtree index arithmetic -/

theorem two_pow_log2_le {n : ℕ} (h : n ≠ 0) : 2 ^ Log2 n ≤ n :=
  Nat.log2_self_le h

theorem lt_two_pow_log2 (n : ℕ) : n < 2 ^ (Log2 n + 1) :=
  Nat.lt_log2_self

theorem log2_eq_of {m n : ℕ} (h1 : 2 ^ m ≤ n) (h2 : n < 2 ^ (m + 1)) : Log2 n = m := by
  unfold Log2
  rw [Nat.log2_eq_log_two]
  exact Nat.log_eq_of_pow_le_of_lt_pow h1 h2

theorem log2_one : Log2 1 = 0 :=
  log2_eq_of (by norm_num) (by norm_num)

theorem getNodeIdx_add_one (R s b : ℕ) :
    getNodeIdxForSubtreeBitOffset R s b + 1 =
      (R + 1) * 2 ^ Log2 (b + 1) + (b + 1 - 2 ^ Log2 (b + 1)) := by
  have hR : 2 ^ Log2 (R + 1) ≤ R + 1 := two_pow_log2_le (Nat.succ_ne_zero R)
  have hb : 2 ^ Log2 (b + 1) ≤ b + 1 := two_pow_log2_le (Nat.succ_ne_zero b)
  simp only [getNodeIdxForSubtreeBitOffset, TreeNodes, PowerOf2]
  have hposR : 0 < (2 : ℕ) ^ Log2 (R + 1) := Nat.pos_pow_of_pos _ (by norm_num)
  have hposb : 0 < (2 : ℕ) ^ Log2 (b + 1) := Nat.pos_pow_of_pos _ (by norm_num)
  have hre : R - (2 ^ Log2 (R + 1) - 1) = R + 1 - 2 ^ Log2 (R + 1) := by omega
  rw [hre, Nat.sub_mul, pow_add]
  have hmul : 2 ^ Log2 (R + 1) * 2 ^ Log2 (b + 1) ≤ (R + 1) * 2 ^ Log2 (b + 1) :=
    Nat.mul_le_mul_right _ hR
  set P := 2 ^ Log2 (R + 1) * 2 ^ Log2 (b + 1) with hP
  set Q := (R + 1) * 2 ^ Log2 (b + 1) with hQ
  have hPpos : 0 < P := Nat.mul_pos hposR hposb
  omega

theorem getNodeIdx_zero (R s : ℕ) : getNodeIdxForSubtreeBitOffset R s 0 = R := by
  have h := getNodeIdx_add_one R s 0
  rw [log2_one] at h
  simp at h
  omega

theorem sub_lt_two_pow_log2 (b : ℕ) : b + 1 - 2 ^ Log2 (b + 1) < 2 ^ Log2 (b + 1) := by
  have h1 : b + 1 < 2 ^ (Log2 (b + 1) + 1) := lt_two_pow_log2 (b + 1)
  have h2 : (2 : ℕ) ^ (Log2 (b + 1) + 1) = 2 * 2 ^ Log2 (b + 1) := by
    rw [pow_succ]
    ring
  omega

theorem getNodeIdx_bounds (R s b : ℕ) :
    (R + 1) * 2 ^ Log2 (b + 1) ≤ getNodeIdxForSubtreeBitOffset R s b + 1 ∧
      getNodeIdxForSubtreeBitOffset R s b + 1 < (R + 2) * 2 ^ Log2 (b + 1) := by
  have h := getNodeIdx_add_one R s b
  have ht := sub_lt_two_pow_log2 b
  constructor
  · omega
  · have hexp : (R + 2) * 2 ^ Log2 (b + 1) =
        (R + 1) * 2 ^ Log2 (b + 1) + 2 ^ Log2 (b + 1) := by ring
    omega

theorem getNodeIdx_strictMono {R s b1 b2 : ℕ} (h : Log2 (b1 + 1) < Log2 (b2 + 1)) :
    getNodeIdxForSubtreeBitOffset R s b1 < getNodeIdxForSubtreeBitOffset R s b2 := by
  have h1 := (getNodeIdx_bounds R s b1).2
  have h2 := (getNodeIdx_bounds R s b2).1
  have hstep : (R + 2) * 2 ^ Log2 (b1 + 1) ≤ (R + 1) * 2 ^ Log2 (b2 + 1) := by
    calc (R + 2) * 2 ^ Log2 (b1 + 1) ≤ 2 * (R + 1) * 2 ^ Log2 (b1 + 1) :=
        Nat.mul_le_mul_right _ (by omega)
    _ = (R + 1) * 2 ^ (Log2 (b1 + 1) + 1) := by rw [pow_succ]; ring
    _ ≤ (R + 1) * 2 ^ Log2 (b2 + 1) :=
        Nat.mul_le_mul_left _ (Nat.pow_le_pow_right (by norm_num) h)
  omega

theorem getNodeIdx_inj {R s b1 b2 : ℕ}
    (h : getNodeIdxForSubtreeBitOffset R s b1 = getNodeIdxForSubtreeBitOffset R s b2) :
    b1 = b2 := by
  rcases Nat.lt_trichotomy (Log2 (b1 + 1)) (Log2 (b2 + 1)) with hlt | heq | hgt
  · exact absurd h (Nat.ne_of_lt (getNodeIdx_strictMono hlt))
  · have h1 := getNodeIdx_add_one R s b1
    have h2 := getNodeIdx_add_one R s b2
    rw [heq] at h1
    have hb1 : 2 ^ Log2 (b1 + 1) ≤ b1 + 1 := two_pow_log2_le (Nat.succ_ne_zero b1)
    have hb2 : 2 ^ Log2 (b2 + 1) ≤ b2 + 1 := two_pow_log2_le (Nat.succ_ne_zero b2)
    rw [heq] at hb1
    omega
  · exact absurd h.symm (Nat.ne_of_lt (getNodeIdx_strictMono hgt))

theorem falseChildBitOffset_add_one (b : ℕ) :
    falseChildBitOffset b + 1 = 2 ^ (Log2 (b + 1) + 1) + 2 * (b + 1 - 2 ^ Log2 (b + 1)) := by
  have hpos : 0 < (2 : ℕ) ^ (Log2 (b + 1) + 1) := Nat.pos_pow_of_pos _ (by norm_num)
  simp only [falseChildBitOffset]
  omega

theorem falseChildBitOffset_log2 (b : ℕ) :
    Log2 (falseChildBitOffset b + 1) = Log2 (b + 1) + 1 := by
  rw [falseChildBitOffset_add_one]
  have ht := sub_lt_two_pow_log2 b
  apply log2_eq_of
  · omega
  · have hexp : (2 : ℕ) ^ (Log2 (b + 1) + 1 + 1) = 2 * 2 ^ (Log2 (b + 1) + 1) := by
      rw [pow_succ]; ring
    have hexp2 : (2 : ℕ) ^ (Log2 (b + 1) + 1) = 2 * 2 ^ Log2 (b + 1) := by
      rw [pow_succ]; ring
    omega

theorem trueChildBitOffset_add_one (b : ℕ) :
    trueChildBitOffset b + 1 = 2 ^ (Log2 (b + 1) + 1) + 2 * (b + 1 - 2 ^ Log2 (b + 1)) + 1 := by
  rw [trueChildBitOffset, falseChildBitOffset_add_one]

theorem trueChildBitOffset_log2 (b : ℕ) :
    Log2 (trueChildBitOffset b + 1) = Log2 (b + 1) + 1 := by
  rw [trueChildBitOffset_add_one]
  have ht := sub_lt_two_pow_log2 b
  apply log2_eq_of
  · omega
  · have hexp : (2 : ℕ) ^ (Log2 (b + 1) + 1 + 1) = 2 * 2 ^ (Log2 (b + 1) + 1) := by
      rw [pow_succ]; ring
    have hexp2 : (2 : ℕ) ^ (Log2 (b + 1) + 1) = 2 * 2 ^ Log2 (b + 1) := by
      rw [pow_succ]; ring
    omega

theorem getNodeIdx_falseChild (R s b : ℕ) :
    getNodeIdxForSubtreeBitOffset R s (falseChildBitOffset b) =
      2 * getNodeIdxForSubtreeBitOffset R s b + 1 := by
  have h1 := getNodeIdx_add_one R s (falseChildBitOffset b)
  have h2 := getNodeIdx_add_one R s b
  rw [falseChildBitOffset_log2, falseChildBitOffset_add_one] at h1
  have hpow : (2 : ℕ) ^ (Log2 (b + 1) + 1) = 2 * 2 ^ Log2 (b + 1) := by
    rw [pow_succ]; ring
  have ht := sub_lt_two_pow_log2 b
  have hb : 2 ^ Log2 (b + 1) ≤ b + 1 := two_pow_log2_le (Nat.succ_ne_zero b)
  have hmul : (R + 1) * 2 ^ (Log2 (b + 1) + 1) = 2 * ((R + 1) * 2 ^ Log2 (b + 1)) := by
    rw [hpow]; ring
  omega

theorem getNodeIdx_trueChild (R s b : ℕ) :
    getNodeIdxForSubtreeBitOffset R s (trueChildBitOffset b) =
      2 * getNodeIdxForSubtreeBitOffset R s b + 2 := by
  have h1 := getNodeIdx_add_one R s (trueChildBitOffset b)
  have h2 := getNodeIdx_add_one R s b
  rw [trueChildBitOffset_log2, trueChildBitOffset_add_one] at h1
  have hpow : (2 : ℕ) ^ (Log2 (b + 1) + 1) = 2 * 2 ^ Log2 (b + 1) := by
    rw [pow_succ]; ring
  have ht := sub_lt_two_pow_log2 b
  have hb : 2 ^ Log2 (b + 1) ≤ b + 1 := two_pow_log2_le (Nat.succ_ne_zero b)
  have hmul : (R + 1) * 2 ^ (Log2 (b + 1) + 1) = 2 * ((R + 1) * 2 ^ Log2 (b + 1)) := by
    rw [hpow]; ring
  omega

/-! ## Bit-level lemmas about templates, variants and condition vectors -/

theorem testBit_bit_shiftLeft (v : Bool) (b t : ℕ) :
    ((if v then 1 else 0 : ℕ) <<< b).testBit t = (decide (t = b) && v) := by
  cases v
  · simp [Nat.zero_shiftLeft, Nat.zero_testBit]
  · rw [if_pos rfl, Nat.one_shiftLeft]
    by_cases h : t = b
    · subst h
      simp [Nat.testBit_two_pow_self]
    · simp [Nat.testBit_two_pow_of_ne (Ne.symm h), h]

theorem lt_two_pow_of_high_bits {x n : ℕ} (h : ∀ i, n ≤ i → x.testBit i = false) :
    x < 2 ^ n := by
  have hx : x = x % 2 ^ n := by
    apply Nat.eq_of_testBit_eq
    intro i
    rw [Nat.testBit_mod_two_pow]
    by_cases hi : i < n
    · simp [hi]
    · simp [hi, h i (by omega)]
  rw [hx]
  exact Nat.mod_lt _ (Nat.pos_pow_of_pos _ (by norm_num))

theorem foldl_or_testBit (g : ℕ → Bool) (l : List ℕ) (a t : ℕ) (hl : ∀ b ∈ l, b < 64) :
    (l.foldl (fun acc b => acc ||| ((if g b then 1 else 0) <<< (b % 64))) a).testBit t =
      (a.testBit t || (decide (t ∈ l) && g t)) := by
  induction l generalizing a with
  | nil => simp
  | cons b rest ih =>
    rw [List.foldl_cons]
    rw [ih _ (fun c hc => hl c (List.mem_cons_of_mem b hc))]
    rw [Nat.mod_eq_of_lt (hl b (List.mem_cons_self b rest))]
    rw [Nat.testBit_lor, testBit_bit_shiftLeft]
    by_cases hb : t = b
    · subst hb
      cases hgt : g t <;> simp [hgt, List.mem_cons]
    · simp [hb, List.mem_cons]

theorem template_foldl_testBit (m : List (ℕ × Bool)) (a t : ℕ) :
    (m.foldl (fun acc e => acc ||| ((if e.2 then 1 else 0) <<< e.1)) a).testBit t =
      (a.testBit t || decide ((t, true) ∈ m)) := by
  induction m generalizing a with
  | nil => simp
  | cons e rest ih =>
    rw [List.foldl_cons, ih, Nat.testBit_lor, testBit_bit_shiftLeft]
    rcases e with ⟨b, v⟩
    by_cases hb : t = b
    · subst hb
      cases v <;> simp [List.mem_cons, Prod.ext_iff]
    · simp [List.mem_cons, Prod.ext_iff, hb]

theorem buildFixedConditionVectorTemplate_testBit (m : List (ℕ × Bool)) (t : ℕ) :
    (buildFixedConditionVectorTemplate m).testBit t = decide ((t, true) ∈ m) := by
  rw [buildFixedConditionVectorTemplate, template_foldl_testBit]
  simp

theorem pathBitsMap_val_unique {m : List (ℕ × Bool)} (hnd : (m.map Prod.fst).Nodup)
    {b : ℕ} {v w : Bool} (hv : (b, v) ∈ m) (hw : (b, w) ∈ m) : v = w := by
  induction m with
  | nil => cases hv
  | cons e rest ih =>
    rw [List.map_cons, List.nodup_cons] at hnd
    rcases List.mem_cons.mp hv with hv1 | hv1 <;>
      rcases List.mem_cons.mp hw with hw1 | hw1
    · rw [← hv1] at hw1
      exact (Prod.ext_iff.mp hw1.symm).2
    · exfalso
      apply hnd.1
      rw [← hv1]
      exact List.mem_map.mpr ⟨(b, w), hw1, rfl⟩
    · exfalso
      apply hnd.1
      rw [← hw1]
      exact List.mem_map.mpr ⟨(b, v), hv1, rfl⟩
    · exact ih hnd.2 hv1 hw1

theorem testBit_template_of_mem {m : List (ℕ × Bool)} (hnd : (m.map Prod.fst).Nodup)
    {b : ℕ} {v : Bool} (hmem : (b, v) ∈ m) :
    (buildFixedConditionVectorTemplate m).testBit b = v := by
  rw [buildFixedConditionVectorTemplate_testBit]
  cases hv : v
  · subst hv
    simp only [decide_eq_false_iff_not]
    intro hcon
    exact Bool.false_ne_true (pathBitsMap_val_unique hnd hmem hcon)
  · subst hv
    simp [hmem]

theorem template_lt_two_pow {m : List (ℕ × Bool)} {n : ℕ} (hkeys : ∀ e ∈ m, e.1 < n) :
    buildFixedConditionVectorTemplate m < 2 ^ n := by
  apply lt_two_pow_of_high_bits
  intro i hi
  rw [buildFixedConditionVectorTemplate_testBit]
  simp only [decide_eq_false_iff_not]
  intro hcon
  have := hkeys _ hcon
  simp at this
  omega

theorem lookup_eq_none_iff {β : Type} (l : List (ℕ × β)) (a : ℕ) :
    l.lookup a = none ↔ a ∉ l.map Prod.fst := by
  induction l with
  | nil => simp [List.lookup]
  | cons e rest ih =>
    rcases e with ⟨k, v⟩
    by_cases hk : a = k
    · subst hk
      simp [List.lookup]
    · have hbeq : (a == k) = false := beq_eq_false_iff_ne.mpr hk
      simp [List.lookup, hbeq, ih, hk]

theorem mem_variantsRec_iff {cv : ℕ} {l : List ℕ} (hnd : l.Nodup)
    (hcv : ∀ b ∈ l, cv.testBit b = false) (w : ℕ) :
    w ∈ buildCanonicalConditionVectorVariantsRecursively cv l ↔
      ∀ t, t ∉ l → w.testBit t = cv.testBit t := by
  induction l generalizing cv with
  | nil =>
    simp only [buildCanonicalConditionVectorVariantsRecursively, List.mem_singleton,
      List.not_mem_nil, not_false_iff, forall_true_left]
    constructor
    · intro h t
      rw [h]
    · intro h
      exact Nat.eq_of_testBit_eq h
  | cons b rest ih =>
    rw [List.nodup_cons] at hnd
    have hcvrest : ∀ c ∈ rest, cv.testBit c = false :=
      fun c hc => hcv c (List.mem_cons_of_mem b hc)
    have hcvb : cv.testBit b = false := hcv b (List.mem_cons_self b rest)
    have hup : ∀ c ∈ rest, (cv ||| 1 <<< b).testBit c = false := by
      intro c hc
      rw [Nat.one_shiftLeft, Nat.testBit_lor, hcvrest c hc,
        Nat.testBit_two_pow_of_ne (fun hbc => hnd.1 (by rw [hbc]; exact hc))]
      rw [Bool.or_false]
    rw [buildCanonicalConditionVectorVariantsRecursively, List.mem_append,
      ih hnd.2 hup, ih hnd.2 hcvrest]
    constructor
    · rintro (h | h) <;> intro t ht
      · rw [List.mem_cons, not_or] at ht
        rw [h t ht.2, Nat.one_shiftLeft, Nat.testBit_lor,
          Nat.testBit_two_pow_of_ne (fun hbc => ht.1 hbc.symm)]
        rw [Bool.or_false]
      · exact h t (fun hc => ht (List.mem_cons_of_mem b hc))
    · intro h
      by_cases hw : w.testBit b = true
      · left
        intro t ht
        by_cases htb : t = b
        · subst htb
          rw [hw, Nat.one_shiftLeft, Nat.testBit_lor, Nat.testBit_two_pow_self]
          rw [Bool.or_true]
        · rw [h t (by simp [htb, ht]), Nat.one_shiftLeft, Nat.testBit_lor,
            Nat.testBit_two_pow_of_ne (fun hbc => htb hbc.symm)]
          rw [Bool.or_false]
      · right
        intro t ht
        by_cases htb : t = b
        · subst htb
          rw [hcvb]
          exact Bool.eq_false_iff.mpr hw
        · exact h t (by simp [htb, ht])

theorem length_variantsRec (cv : ℕ) (l : List ℕ) :
    (buildCanonicalConditionVectorVariantsRecursively cv l).length = 2 ^ l.length := by
  induction l generalizing cv with
  | nil => rfl
  | cons b rest ih =>
    rw [buildCanonicalConditionVectorVariantsRecursively, List.length_append, ih, ih,
      List.length_cons, pow_succ]
    ring

theorem variantsRec_or_form {cv w : ℕ} {l : List ℕ}
    (h : w ∈ buildCanonicalConditionVectorVariantsRecursively cv l) :
    ∃ s : ℕ, w = cv ||| s ∧ ∀ t, s.testBit t = true → t ∈ l := by
  induction l generalizing cv with
  | nil =>
    rw [buildCanonicalConditionVectorVariantsRecursively, List.mem_singleton] at h
    refine ⟨0, ?_, ?_⟩
    · simp [h]
    · intro t ht
      rw [Nat.zero_testBit] at ht
      cases ht
  | cons b rest ih =>
    rw [buildCanonicalConditionVectorVariantsRecursively, List.mem_append] at h
    rcases h with h | h
    · rcases ih h with ⟨s, hs, hbits⟩
      refine ⟨1 <<< b ||| s, ?_, ?_⟩
      · rw [hs, Nat.lor_assoc]
      · intro t ht
        rw [Nat.testBit_lor] at ht
        rcases Bool.or_eq_true_iff.mp ht with h1 | h1
        · rw [Nat.one_shiftLeft] at h1
          by_cases htb : t = b
          · exact htb ▸ List.mem_cons_self b rest
          · rw [Nat.testBit_two_pow_of_ne (fun hbc => htb hbc.symm)] at h1
            cases h1
        · exact List.mem_cons_of_mem b (hbits t h1)
    · rcases ih h with ⟨s, hs, hbits⟩
      exact ⟨s, hs, fun t ht => List.mem_cons_of_mem b (hbits t ht)⟩

theorem mem_variableBitOffsets_iff {n t : ℕ} {m : List (ℕ × Bool)} :
    t ∈ variableBitOffsetsOf n m ↔ t < n ∧ t ∉ m.map Prod.fst := by
  rw [variableBitOffsetsOf, List.mem_filter, List.mem_range,
    Option.isNone_iff_eq_none, lookup_eq_none_iff]

theorem nodup_variableBitOffsets (n : ℕ) (m : List (ℕ × Bool)) :
    (variableBitOffsetsOf n m).Nodup :=
  (List.nodup_range n).filter _

theorem variableBitOffsets_isEmpty_iff {n : ℕ} {m : List (ℕ × Bool)} :
    (variableBitOffsetsOf n m).isEmpty = true ↔
      ∀ t, t < n → t ∈ m.map Prod.fst := by
  rw [List.isEmpty_iff_eq_nil, List.eq_nil_iff_forall_not_mem]
  constructor
  · intro h t ht
    by_contra hcon
    exact h t (mem_variableBitOffsets_iff.mpr ⟨ht, hcon⟩)
  · intro h t hcon
    rcases mem_variableBitOffsets_iff.mp hcon with ⟨h1, h2⟩
    exact h2 (h t h1)

theorem mem_buildVariants_iff {n : ℕ} {m : List (ℕ × Bool)}
    (hnd : (m.map Prod.fst).Nodup) (hkeys : ∀ e ∈ m, e.1 < n) (w : ℕ) :
    w ∈ buildCanonicalConditionVectorVariants n (buildFixedConditionVectorTemplate m) m ↔
      (w < 2 ^ n ∧ ∀ e ∈ m, w.testBit e.1 = e.2) := by
  have htmpl_lt : buildFixedConditionVectorTemplate m < 2 ^ n := template_lt_two_pow hkeys
  have hkey_of_lt : ∀ t, t < n → t ∉ variableBitOffsetsOf n m → t ∈ m.map Prod.fst := by
    intro t ht hvar
    by_contra hcon
    exact hvar (mem_variableBitOffsets_iff.mpr ⟨ht, hcon⟩)
  have hentry : ∀ t, t ∈ m.map Prod.fst → ∃ v, (t, v) ∈ m := by
    intro t ht
    rcases List.mem_map.mp ht with ⟨⟨a, v⟩, he, hfst⟩
    exact ⟨v, by rw [← hfst]; exact he⟩
  rw [buildCanonicalConditionVectorVariants]
  by_cases hE : (variableBitOffsetsOf n m).isEmpty = true
  · rw [if_pos hE, List.mem_singleton]
    have hall := variableBitOffsets_isEmpty_iff.mp hE
    constructor
    · intro h
      subst h
      exact ⟨htmpl_lt, fun e he => testBit_template_of_mem hnd he⟩
    · rintro ⟨hlt, hbits⟩
      apply Nat.eq_of_testBit_eq
      intro t
      by_cases ht : t < n
      · rcases hentry t (hall t ht) with ⟨v, hv⟩
        rw [testBit_template_of_mem hnd hv]
        exact hbits (t, v) hv
      · rw [Nat.testBit_eq_false_of_lt (lt_of_lt_of_le hlt (Nat.pow_le_pow_right (by norm_num) (by omega))),
          Nat.testBit_eq_false_of_lt (lt_of_lt_of_le htmpl_lt (Nat.pow_le_pow_right (by norm_num) (by omega)))]
  · rw [if_neg hE]
    have htmpl_var : ∀ b ∈ variableBitOffsetsOf n m,
        (buildFixedConditionVectorTemplate m).testBit b = false := by
      intro b hb
      rcases mem_variableBitOffsets_iff.mp hb with ⟨h1, h2⟩
      rw [buildFixedConditionVectorTemplate_testBit]
      simp only [decide_eq_false_iff_not]
      intro hcon
      exact h2 (List.mem_map.mpr ⟨(b, true), hcon, rfl⟩)
    rw [mem_variantsRec_iff (nodup_variableBitOffsets n m) htmpl_var]
    constructor
    · intro h
      have hwlt : w < 2 ^ n := by
        apply lt_two_pow_of_high_bits
        intro i hi
        have hni : i ∉ variableBitOffsetsOf n m := by
          intro hcon
          rcases mem_variableBitOffsets_iff.mp hcon with ⟨h1, _h2⟩
          omega
        rw [h i hni]
        exact Nat.testBit_eq_false_of_lt
          (lt_of_lt_of_le htmpl_lt (Nat.pow_le_pow_right (by norm_num) hi))
      refine ⟨hwlt, fun e he => ?_⟩
      have hni : e.1 ∉ variableBitOffsetsOf n m := by
        intro hcon
        rcases mem_variableBitOffsets_iff.mp hcon with ⟨_h1, h2⟩
        exact h2 (List.mem_map.mpr ⟨e, he, rfl⟩)
      rw [h e.1 hni]
      exact testBit_template_of_mem hnd he
    · rintro ⟨hlt, hbits⟩ t ht
      by_cases htn : t < n
      · rcases hentry t (hkey_of_lt t htn ht) with ⟨v, hv⟩
        rw [testBit_template_of_mem hnd hv]
        exact hbits (t, v) hv
      · rw [Nat.testBit_eq_false_of_lt
            (lt_of_lt_of_le hlt (Nat.pow_le_pow_right (by norm_num) (by omega))),
          Nat.testBit_eq_false_of_lt
            (lt_of_lt_of_le htmpl_lt (Nat.pow_le_pow_right (by norm_num) (by omega)))]

theorem length_buildVariants (n : ℕ) (tmpl : ℕ) (m : List (ℕ × Bool)) :
    (buildCanonicalConditionVectorVariants n tmpl m).length =
      2 ^ (variableBitOffsetsOf n m).length := by
  rw [buildCanonicalConditionVectorVariants]
  by_cases hE : (variableBitOffsetsOf n m).isEmpty = true
  · rw [if_pos hE]
    rw [List.isEmpty_iff_eq_nil] at hE
    rw [hE]
    rfl
  · rw [if_neg hE, length_variantsRec]

theorem length_variableBitOffsets {n : ℕ} {m : List (ℕ × Bool)}
    (hnd : (m.map Prod.fst).Nodup) (hkeys : ∀ e ∈ m, e.1 < n) :
    (variableBitOffsetsOf n m).length = n - (m.map Prod.fst).length := by
  have hsplit := @List.length_eq_length_filter_add ℕ (List.range n)
    (fun i => (m.lookup i).isNone)
  have hkeys2 : ∀ a ∈ m.map Prod.fst, a < n := by
    intro a ha
    rcases List.mem_map.mp ha with ⟨e, he, hfst⟩
    exact hfst ▸ hkeys e he
  have hperm : ((List.range n).filter (fun i => !(m.lookup i).isNone)).length =
      (m.map Prod.fst).length := by
    apply List.Perm.length_eq
    rw [List.perm_ext_iff_of_nodup ((List.nodup_range n).filter _) hnd]
    intro a
    rw [List.mem_filter, List.mem_range]
    constructor
    · rintro ⟨h1, h2⟩
      by_contra hcon
      rw [(lookup_eq_none_iff m a).mpr hcon] at h2
      cases h2
    · intro h
      refine ⟨hkeys2 a h, ?_⟩
      have hne : m.lookup a ≠ none := fun hnone => (lookup_eq_none_iff m a).mp hnone h
      cases hcase : m.lookup a with
      | none => exact absurd hcase hne
      | some v => rfl
  rw [List.length_range] at hsplit
  have hsplit2 : n = ((List.range n).filter (fun i => (m.lookup i).isNone)).length +
      ((List.range n).filter (fun i => !(m.lookup i).isNone)).length := by
    simpa using hsplit
  have hvlen : (variableBitOffsetsOf n m).length =
      ((List.range n).filter (fun i => (m.lookup i).isNone)).length := rfl
  omega

/-! ## The condition vector and the paths builder -/

theorem emitComputeConditionVector_testBit (sqrtSem lnSem : FloatVal → FloatVal)
    (tree : DecisionTree_t) (R s : ℕ) (dataSet : DataSet_t) {numNodes : ℕ}
    (hnn : numNodes ≤ 64) (t : ℕ) :
    (emitComputeConditionVector sqrtSem lnSem tree R s dataSet numNodes).testBit t =
      (decide (t < numNodes) &&
        nodePredicate sqrtSem lnSem tree dataSet (getNodeIdxForSubtreeBitOffset R s t)) := by
  have h := foldl_or_testBit
    (fun b => nodePredicate sqrtSem lnSem tree dataSet (getNodeIdxForSubtreeBitOffset R s b))
    (List.range numNodes) 0 t
    (fun b hb => lt_of_lt_of_le (List.mem_range.mp hb) hnn)
  rw [Nat.zero_testBit, Bool.false_or] at h
  simp only [List.mem_range] at h
  exact h

theorem emitComputeConditionVector_lt (sqrtSem lnSem : FloatVal → FloatVal)
    (tree : DecisionTree_t) (R s : ℕ) (dataSet : DataSet_t) {numNodes : ℕ}
    (hnn : numNodes ≤ 64) :
    emitComputeConditionVector sqrtSem lnSem tree R s dataSet numNodes < 2 ^ numNodes := by
  apply lt_two_pow_of_high_bits
  intro i hi
  rw [emitComputeConditionVector_testBit sqrtSem lnSem tree R s dataSet hnn i]
  simp [Nat.not_lt.mpr hi]

theorem buildPaths_length (tree : DecisionTree_t) (bo : ℕ → ℕ) (k : ℕ) :
    ∀ n : ℕ, (buildSubtreeLeafNodePathsBitsMapsRecursively tree bo n k).length = 2 ^ k := by
  induction k with
  | zero => intro n; rfl
  | succ k ih =>
    intro n
    simp only [buildSubtreeLeafNodePathsBitsMapsRecursively]
    rw [List.length_append, List.length_map, List.length_map, ih, ih, pow_succ]
    ring

theorem buildPaths_exists_match (tree : DecisionTree_t) (bo : ℕ → ℕ) (σ : ℕ → Bool) (k : ℕ) :
    ∀ n : ℕ, ∃ p ∈ buildSubtreeLeafNodePathsBitsMapsRecursively tree bo n k,
      matchesMap σ p.2 := by
  induction k with
  | zero =>
    intro n
    exact ⟨(n, []), List.mem_singleton_self _, fun e he => absurd he (List.not_mem_nil e)⟩
  | succ k ih =>
    intro n
    cases hσ : σ (bo n) with
    | true =>
      rcases ih (tree n).TrueChildNodesIdx with ⟨p, hp, hm⟩
      refine ⟨(p.1, (bo n, true) :: p.2), ?_, ?_⟩
      · simp only [buildSubtreeLeafNodePathsBitsMapsRecursively]
        exact List.mem_append_left _ (List.mem_map.mpr ⟨p, hp, rfl⟩)
      · intro e he
        rcases List.mem_cons.mp he with he1 | he1
        · rw [he1]
          exact hσ
        · exact hm e he1
    | false =>
      rcases ih (tree n).FalseChildNodesIdx with ⟨p, hp, hm⟩
      refine ⟨(p.1, (bo n, false) :: p.2), ?_, ?_⟩
      · simp only [buildSubtreeLeafNodePathsBitsMapsRecursively]
        exact List.mem_append_right _ (List.mem_map.mpr ⟨p, hp, rfl⟩)
      · intro e he
        rcases List.mem_cons.mp he with he1 | he1
        · rw [he1]
          exact hσ
        · exact hm e he1

theorem buildPaths_match_interp {tree : DecisionTree_t} (hP : PerfectChildren tree)
    (bo : ℕ → ℕ) (σ π : ℕ → Bool) (k : ℕ) :
    ∀ n : ℕ, (∀ a ∈ subtreeInternalNodes tree n k, σ (bo a) = π a) →
      ∀ p ∈ buildSubtreeLeafNodePathsBitsMapsRecursively tree bo n k,
        matchesMap σ p.2 → p.1 = interpTraverse π n k := by
  induction k with
  | zero =>
    intro n _hc p hp _hm
    simp only [buildSubtreeLeafNodePathsBitsMapsRecursively] at hp
    rw [List.mem_singleton] at hp
    rw [hp]
    rfl
  | succ k ih =>
    intro n hc p hp hm
    simp only [buildSubtreeLeafNodePathsBitsMapsRecursively] at hp
    have hπ : σ (bo n) = π n := hc n (List.mem_cons_self _ _)
    rcases List.mem_append.mp hp with hp1 | hp1
    · rcases List.mem_map.mp hp1 with ⟨q, hq, hqe⟩
      have hσtrue : σ (bo n) = true := by
        have hmem : ((bo n, true) : ℕ × Bool) ∈ p.2 := by
          rw [← hqe]
          exact List.mem_cons_self _ _
        exact hm (bo n, true) hmem
      have hπn : π n = true := by rw [← hπ]; exact hσtrue
      have hmq : matchesMap σ q.2 := by
        intro e he
        apply hm
        rw [← hqe]
        exact List.mem_cons_of_mem _ he
      have hc2 : ∀ a ∈ subtreeInternalNodes tree (tree n).TrueChildNodesIdx k,
          σ (bo a) = π a := by
        intro a ha
        apply hc
        simp only [subtreeInternalNodes]
        exact List.mem_cons_of_mem _ (List.mem_append_left _ ha)
      have hres := ih (tree n).TrueChildNodesIdx hc2 q hq hmq
      rw [← hqe]
      show q.1 = interpTraverse π n (k + 1)
      rw [interpTraverse, interpStep, if_pos hπn, ← (hP n).1]
      exact hres
    · rcases List.mem_map.mp hp1 with ⟨q, hq, hqe⟩
      have hσfalse : σ (bo n) = false := by
        have hmem : ((bo n, false) : ℕ × Bool) ∈ p.2 := by
          rw [← hqe]
          exact List.mem_cons_self _ _
        exact hm (bo n, false) hmem
      have hπn : π n = false := by rw [← hπ]; exact hσfalse
      have hmq : matchesMap σ q.2 := by
        intro e he
        apply hm
        rw [← hqe]
        exact List.mem_cons_of_mem _ he
      have hc2 : ∀ a ∈ subtreeInternalNodes tree (tree n).FalseChildNodesIdx k,
          σ (bo a) = π a := by
        intro a ha
        apply hc
        simp only [subtreeInternalNodes]
        exact List.mem_cons_of_mem _ (List.mem_append_right _ ha)
      have hres := ih (tree n).FalseChildNodesIdx hc2 q hq hmq
      rw [← hqe]
      show q.1 = interpTraverse π n (k + 1)
      rw [interpTraverse, interpStep, if_neg (by rw [hπn]; exact Bool.false_ne_true), ← (hP n).2]
      exact hres

theorem buildPaths_map_fst (tree : DecisionTree_t) (bo : ℕ → ℕ) (k : ℕ) :
    ∀ n : ℕ, (buildSubtreeLeafNodePathsBitsMapsRecursively tree bo n k).map Prod.fst =
      (List.range (2 ^ k)).map (subtreeLeafByRank tree n k) := by
  induction k with
  | zero => intro n; rfl
  | succ k ih =>
    intro n
    simp only [buildSubtreeLeafNodePathsBitsMapsRecursively]
    rw [List.map_append, List.map_map, List.map_map]
    have hsplit : (2 : ℕ) ^ (k + 1) = 2 ^ k + 2 ^ k := by
      rw [pow_succ]
      ring
    rw [hsplit, List.range_add, List.map_append, List.map_map]
    congr 1
    · have hfst : List.map (Prod.fst ∘ fun p : ℕ × List (ℕ × Bool) =>
          (p.1, (bo n, true) :: p.2))
          (buildSubtreeLeafNodePathsBitsMapsRecursively tree bo (tree n).TrueChildNodesIdx k) =
          List.map Prod.fst
            (buildSubtreeLeafNodePathsBitsMapsRecursively tree bo (tree n).TrueChildNodesIdx k) :=
        List.map_congr_left (fun p _ => rfl)
      rw [hfst, ih]
      apply List.map_congr_left
      intro i hi
      rw [List.mem_range] at hi
      rw [subtreeLeafByRank, if_pos hi]
    · have hfst : List.map (Prod.fst ∘ fun p : ℕ × List (ℕ × Bool) =>
          (p.1, (bo n, false) :: p.2))
          (buildSubtreeLeafNodePathsBitsMapsRecursively tree bo (tree n).FalseChildNodesIdx k) =
          List.map Prod.fst
            (buildSubtreeLeafNodePathsBitsMapsRecursively tree bo (tree n).FalseChildNodesIdx k) :=
        List.map_congr_left (fun p _ => rfl)
      rw [hfst, ih]
      apply List.map_congr_left
      intro i _hi
      show subtreeLeafByRank tree (tree n).FalseChildNodesIdx k i =
        subtreeLeafByRank tree n (k + 1) (2 ^ k + i)
      rw [subtreeLeafByRank, if_neg (by omega)]
      congr 1
      omega

theorem subtreeLeafByRank_bounds {tree : DecisionTree_t} (hP : PerfectChildren tree)
    (k : ℕ) : ∀ n i : ℕ,
    (n + 1) * 2 ^ k ≤ subtreeLeafByRank tree n k i + 1 ∧
      subtreeLeafByRank tree n k i + 1 < (n + 2) * 2 ^ k := by
  induction k with
  | zero =>
    intro n i
    simp only [subtreeLeafByRank, pow_zero, mul_one]
    omega
  | succ k ih =>
    intro n i
    rw [subtreeLeafByRank]
    by_cases hi : i < 2 ^ k
    · rw [if_pos hi, (hP n).1]
      have h1 : (n + 1) * 2 ^ (k + 1) = (2 * n + 2) * 2 ^ k := by rw [pow_succ]; ring
      have h2 : (2 * n + 2) * 2 ^ k ≤ (2 * n + 2 + 1) * 2 ^ k :=
        Nat.mul_le_mul_right _ (by omega)
      have h3 := (ih (2 * n + 2) i).1
      have h4 := (ih (2 * n + 2) i).2
      have h5 : (2 * n + 2 + 2) * 2 ^ k = (n + 2) * 2 ^ (k + 1) := by rw [pow_succ]; ring
      omega
    · rw [if_neg hi, (hP n).2]
      have h1 : (n + 1) * 2 ^ (k + 1) = (2 * n + 1 + 1) * 2 ^ k := by rw [pow_succ]; ring
      have h3 := (ih (2 * n + 1) (i - 2 ^ k)).1
      have h4 := (ih (2 * n + 1) (i - 2 ^ k)).2
      have h2 : (2 * n + 1 + 2) * 2 ^ k ≤ (2 * n + 4) * 2 ^ k :=
        Nat.mul_le_mul_right _ (by omega)
      have h5 : (2 * n + 4) * 2 ^ k = (n + 2) * 2 ^ (k + 1) := by rw [pow_succ]; ring
      omega

theorem subtreeLeafByRank_inj {tree : DecisionTree_t} (hP : PerfectChildren tree)
    (k : ℕ) : ∀ n i j : ℕ, i < 2 ^ k → j < 2 ^ k →
      subtreeLeafByRank tree n k i = subtreeLeafByRank tree n k j → i = j := by
  induction k with
  | zero =>
    intro n i j hi hj _h
    simp only [pow_zero] at hi hj
    omega
  | succ k ih =>
    intro n i j hi hj heq
    rw [subtreeLeafByRank, subtreeLeafByRank] at heq
    by_cases h1 : i < 2 ^ k <;> by_cases h2 : j < 2 ^ k
    · rw [if_pos h1, if_pos h2] at heq
      exact ih _ i j h1 h2 heq
    · exfalso
      rw [if_pos h1, if_neg h2, (hP n).1, (hP n).2] at heq
      have b1 := (subtreeLeafByRank_bounds hP k (2 * n + 2) i).1
      have b2 := (subtreeLeafByRank_bounds hP k (2 * n + 1) (j - 2 ^ k)).2
      have hlink : (2 * n + 2 + 1) * 2 ^ k = (2 * n + 1 + 2) * 2 ^ k := by ring
      omega
    · exfalso
      rw [if_neg h1, if_pos h2, (hP n).1, (hP n).2] at heq
      have b1 := (subtreeLeafByRank_bounds hP k (2 * n + 2) j).1
      have b2 := (subtreeLeafByRank_bounds hP k (2 * n + 1) (i - 2 ^ k)).2
      have hlink : (2 * n + 2 + 1) * 2 ^ k = (2 * n + 1 + 2) * 2 ^ k := by ring
      omega
    · rw [if_neg h1, if_neg h2] at heq
      have := ih _ (i - 2 ^ k) (j - 2 ^ k) (by omega) (by omega) heq
      omega

theorem subtreeInternalNodes_image {tree : DecisionTree_t} (hP : PerfectChildren tree)
    (R s : ℕ) : ∀ k b0 : ℕ, Log2 (b0 + 1) + k ≤ s →
      ∀ a ∈ subtreeInternalNodes tree (getNodeIdxForSubtreeBitOffset R s b0) k,
        ∃ b, b < TreeNodes s ∧ a = getNodeIdxForSubtreeBitOffset R s b := by
  intro k
  induction k with
  | zero =>
    intro b0 _h a ha
    cases ha
  | succ k ih =>
    intro b0 hle a ha
    simp only [subtreeInternalNodes] at ha
    rcases List.mem_cons.mp ha with ha1 | ha1
    · refine ⟨b0, ?_, ha1⟩
      have h1 := lt_two_pow_log2 (b0 + 1)
      have h2 : (2 : ℕ) ^ (Log2 (b0 + 1) + 1) ≤ 2 ^ s :=
        Nat.pow_le_pow_right (by norm_num) (by omega)
      rw [TreeNodes]
      omega
    · rcases List.mem_append.mp ha1 with ha2 | ha2
      · have hchild : (tree (getNodeIdxForSubtreeBitOffset R s b0)).TrueChildNodesIdx =
            getNodeIdxForSubtreeBitOffset R s (trueChildBitOffset b0) := by
          rw [(hP _).1, getNodeIdx_trueChild]
        rw [hchild] at ha2
        exact ih (trueChildBitOffset b0) (by rw [trueChildBitOffset_log2]; omega) a ha2
      · have hchild : (tree (getNodeIdxForSubtreeBitOffset R s b0)).FalseChildNodesIdx =
            getNodeIdxForSubtreeBitOffset R s (falseChildBitOffset b0) := by
          rw [(hP _).2, getNodeIdx_falseChild]
        rw [hchild] at ha2
        exact ih (falseChildBitOffset b0) (by rw [falseChildBitOffset_log2]; omega) a ha2

theorem lookup_map_inj {l : List ℕ} {f : ℕ → ℕ} {b : ℕ} (hb : b ∈ l)
    (hinj : ∀ x y : ℕ, f x = f y → x = y) :
    (l.map (fun x => (f x, x))).lookup (f b) = some b := by
  induction l with
  | nil => cases hb
  | cons c rest ih =>
    rw [List.map_cons]
    by_cases hc : f b = f c
    · have hbc : b = c := hinj _ _ hc
      subst hbc
      simp [List.lookup]
    · have hbeq : (f b == f c) = false := beq_eq_false_iff_ne.mpr hc
      have hbr : b ∈ rest := by
        rcases List.mem_cons.mp hb with h | h
        · exact absurd (by rw [h]) hc
        · exact h
      simp only [List.lookup, hbeq]
      exact ih hbr

theorem bitOffsetOfNode_getNodeIdx (R s : ℕ) {b : ℕ} (hb : b < TreeNodes s) :
    bitOffsetOfNode R s (TreeNodes s) (getNodeIdxForSubtreeBitOffset R s b) = b := by
  rw [bitOffsetOfNode, subtreeNodeIdxBitOffsets,
    lookup_map_inj (List.mem_range.mpr hb) (fun x y h => getNodeIdx_inj h)]
  rfl

theorem buildPaths_keys {tree : DecisionTree_t} (hP : PerfectChildren tree) (R s : ℕ) :
    ∀ k b0 : ℕ, Log2 (b0 + 1) + k ≤ s →
      ∀ p ∈ buildSubtreeLeafNodePathsBitsMapsRecursively tree
          (bitOffsetOfNode R s (TreeNodes s)) (getNodeIdxForSubtreeBitOffset R s b0) k,
        List.Sorted (· < ·) (p.2.map Prod.fst) ∧
          (∀ key ∈ p.2.map Prod.fst,
            2 ^ Log2 (b0 + 1) - 1 ≤ key ∧ key < 2 ^ (Log2 (b0 + 1) + k) - 1) ∧
          p.2.length = k := by
  intro k
  induction k with
  | zero =>
    intro b0 _hle p hp
    simp only [buildSubtreeLeafNodePathsBitsMapsRecursively, List.mem_singleton] at hp
    rw [hp]
    refine ⟨List.sorted_nil, ?_, rfl⟩
    intro key hkey
    cases hkey
  | succ k ih =>
    intro b0 hle p hp
    have hb0lt : b0 < TreeNodes s := by
      have h1 := lt_two_pow_log2 (b0 + 1)
      have h2 : (2 : ℕ) ^ (Log2 (b0 + 1) + 1) ≤ 2 ^ s :=
        Nat.pow_le_pow_right (by norm_num) (by omega)
      rw [TreeNodes]
      omega
    have hbo : bitOffsetOfNode R s (TreeNodes s) (getNodeIdxForSubtreeBitOffset R s b0) = b0 :=
      bitOffsetOfNode_getNodeIdx R s hb0lt
    have hb0up : b0 + 1 < 2 ^ (Log2 (b0 + 1) + 1) := lt_two_pow_log2 (b0 + 1)
    have hb0low : 2 ^ Log2 (b0 + 1) ≤ b0 + 1 := two_pow_log2_le (Nat.succ_ne_zero b0)
    simp only [buildSubtreeLeafNodePathsBitsMapsRecursively] at hp
    have hmain : ∀ (q : ℕ × List (ℕ × Bool)) (v : Bool) (boff : ℕ),
        Log2 (boff + 1) = Log2 (b0 + 1) + 1 →
        q ∈ buildSubtreeLeafNodePathsBitsMapsRecursively tree
          (bitOffsetOfNode R s (TreeNodes s)) (getNodeIdxForSubtreeBitOffset R s boff) k →
        p = (q.1, (b0, v) :: q.2) →
        List.Sorted (· < ·) (p.2.map Prod.fst) ∧
          (∀ key ∈ p.2.map Prod.fst,
            2 ^ Log2 (b0 + 1) - 1 ≤ key ∧ key < 2 ^ (Log2 (b0 + 1) + (k + 1)) - 1) ∧
          p.2.length = k + 1 := by
      intro q v boff hlog hq hpq
      have hih := ih boff (by rw [hlog]; omega) q hq
      rcases hih with ⟨hsort, hbnd, hlen⟩
      rw [hlog] at hbnd
      have hexp : Log2 (b0 + 1) + 1 + k = Log2 (b0 + 1) + (k + 1) := by omega
      rw [hexp] at hbnd
      have hkeyslow : ∀ key ∈ q.2.map Prod.fst, b0 < key := by
        intro key hkey
        have h1 := (hbnd key hkey).1
        have h2 : (2 : ℕ) ^ Log2 (b0 + 1) ≤ 2 ^ (Log2 (b0 + 1) + 1) :=
          Nat.pow_le_pow_right (by norm_num) (by omega)
        omega
      subst hpq
      refine ⟨?_, ?_, ?_⟩
      · show List.Sorted (· < ·) (((b0, v) :: q.2).map Prod.fst)
        rw [List.map_cons, List.sorted_cons]
        exact ⟨hkeyslow, hsort⟩
      · intro key hkey
        rw [List.map_cons, List.mem_cons] at hkey
        rcases hkey with hkey | hkey
        · rw [hkey]
          have h2 : (2 : ℕ) ^ (Log2 (b0 + 1) + 1) ≤ 2 ^ (Log2 (b0 + 1) + (k + 1)) :=
            Nat.pow_le_pow_right (by norm_num) (by omega)
          constructor
          · omega
          · show b0 < 2 ^ (Log2 (b0 + 1) + (k + 1)) - 1
            omega
        · have h1 := hbnd key hkey
          have h2 : (2 : ℕ) ^ Log2 (b0 + 1) ≤ 2 ^ (Log2 (b0 + 1) + 1) :=
            Nat.pow_le_pow_right (by norm_num) (by omega)
          omega
      · show (((b0, v) :: q.2)).length = k + 1
        rw [List.length_cons, hlen]
    rcases List.mem_append.mp hp with hp1 | hp1
    · rcases List.mem_map.mp hp1 with ⟨q, hq, hqe⟩
      rw [hbo] at hqe
      have hchild : (tree (getNodeIdxForSubtreeBitOffset R s b0)).TrueChildNodesIdx =
          getNodeIdxForSubtreeBitOffset R s (trueChildBitOffset b0) := by
        rw [(hP _).1, getNodeIdx_trueChild]
      rw [hchild] at hq
      exact hmain q true (trueChildBitOffset b0) (trueChildBitOffset_log2 b0) hq hqe.symm
    · rcases List.mem_map.mp hp1 with ⟨q, hq, hqe⟩
      rw [hbo] at hqe
      have hchild : (tree (getNodeIdxForSubtreeBitOffset R s b0)).FalseChildNodesIdx =
          getNodeIdxForSubtreeBitOffset R s (falseChildBitOffset b0) := by
        rw [(hP _).2, getNodeIdx_falseChild]
      rw [hchild] at hq
      exact hmain q false (falseChildBitOffset b0) (falseChildBitOffset_log2 b0) hq hqe.symm

theorem findSome?_eq_some_of {α β : Type} (l : List α) (f : α → Option β) (t : β)
    (hex : ∃ p ∈ l, (f p).isSome = true)
    (hall : ∀ p ∈ l, ∀ y, f p = some y → y = t) :
    l.findSome? f = some t := by
  induction l with
  | nil =>
    rcases hex with ⟨p, hp, _⟩
    cases hp
  | cons c rest ih =>
    simp only [List.findSome?]
    cases hc : f c with
    | some y =>
      rw [hall c (List.mem_cons_self _ _) y hc]
    | none =>
      apply ih
      · rcases hex with ⟨p, hp, hps⟩
        rcases List.mem_cons.mp hp with hp1 | hp1
        · rw [hp1, hc] at hps
          cases hps
        · exact ⟨p, hp1, hps⟩
      · exact fun p hp y hy => hall p (List.mem_cons_of_mem _ hp) y hy

theorem subtreeSwitchDispatch_eq {tree : DecisionTree_t} (hP : PerfectChildren tree)
    (sqrtSem lnSem : FloatVal → FloatVal) (dataSet : DataSet_t) (R s : ℕ) (hs : s ≤ 6) :
    subtreeSwitchDispatch sqrtSem lnSem tree dataSet R s =
      some (interpTraverse (nodePredicate sqrtSem lnSem tree dataSet) R s) := by
  have hnn : TreeNodes s ≤ 64 := by
    have h1 : (2 : ℕ) ^ s ≤ 2 ^ 6 := Nat.pow_le_pow_right (by norm_num) hs
    rw [TreeNodes]
    norm_num at h1 ⊢
    omega
  have hcvlt := emitComputeConditionVector_lt sqrtSem lnSem tree R s dataSet hnn
  have hcvbit : ∀ t, t < TreeNodes s →
      (emitComputeConditionVector sqrtSem lnSem tree R s dataSet (TreeNodes s)).testBit t =
        nodePredicate sqrtSem lnSem tree dataSet (getNodeIdxForSubtreeBitOffset R s t) := by
    intro t ht
    rw [emitComputeConditionVector_testBit sqrtSem lnSem tree R s dataSet hnn t]
    simp [ht]
  have hanchor : Log2 (0 + 1) + s ≤ s := by
    simp only [Nat.zero_add, log2_one]
    omega
  have hkeysfacts := buildPaths_keys hP R s s 0 hanchor
  rw [getNodeIdx_zero] at hkeysfacts
  have hconsist : ∀ a ∈ subtreeInternalNodes tree R s,
      (emitComputeConditionVector sqrtSem lnSem tree R s dataSet (TreeNodes s)).testBit
          (bitOffsetOfNode R s (TreeNodes s) a) =
        nodePredicate sqrtSem lnSem tree dataSet a := by
    intro a ha
    have himg := subtreeInternalNodes_image hP R s s 0 hanchor a
      (by rw [getNodeIdx_zero]; exact ha)
    rcases himg with ⟨b, hb, hab⟩
    rw [hab, bitOffsetOfNode_getNodeIdx R s hb]
    exact hcvbit b hb
  have hexists := buildPaths_exists_match tree (bitOffsetOfNode R s (TreeNodes s))
    ((emitComputeConditionVector sqrtSem lnSem tree R s dataSet (TreeNodes s)).testBit) s R
  have hmatch_leaf := buildPaths_match_interp hP (bitOffsetOfNode R s (TreeNodes s))
    ((emitComputeConditionVector sqrtSem lnSem tree R s dataSet (TreeNodes s)).testBit)
    (nodePredicate sqrtSem lnSem tree dataSet) s R hconsist
  have hvariants : ∀ p ∈ buildSubtreeLeafNodePathsBitsMapsRecursively tree
      (bitOffsetOfNode R s (TreeNodes s)) R s,
      (emitComputeConditionVector sqrtSem lnSem tree R s dataSet (TreeNodes s) ∈
        buildCanonicalConditionVectorVariants (TreeNodes s)
          (buildFixedConditionVectorTemplate p.2) p.2) ↔
        matchesMap ((emitComputeConditionVector sqrtSem lnSem tree R s dataSet
          (TreeNodes s)).testBit) p.2 := by
    intro p hp
    rcases hkeysfacts p hp with ⟨hsort, hbnd, _hlen⟩
    have hnd : (p.2.map Prod.fst).Nodup := hsort.nodup
    have hkeys : ∀ e ∈ p.2, e.1 < TreeNodes s := by
      intro e he
      have := (hbnd e.1 (List.mem_map.mpr ⟨e, he, rfl⟩)).2
      rw [log2_one] at this
      simp only [Nat.zero_add] at this
      rw [TreeNodes]
      omega
    rw [mem_buildVariants_iff hnd hkeys]
    constructor
    · rintro ⟨_h1, h2⟩
      exact h2
    · intro h
      exact ⟨hcvlt, h⟩
  simp only [subtreeSwitchDispatch]
  apply findSome?_eq_some_of
  · rcases hexists with ⟨p, hp, hm⟩
    refine ⟨p, hp, ?_⟩
    rw [if_pos ((hvariants p hp).mpr hm)]
    rfl
  · intro p hp y hy
    by_cases hcond : emitComputeConditionVector sqrtSem lnSem tree R s dataSet (TreeNodes s) ∈
        buildCanonicalConditionVectorVariants (TreeNodes s)
          (buildFixedConditionVectorTemplate p.2) p.2
    · rw [if_pos hcond] at hy
      have hm := (hvariants p hp).mp hcond
      have := hmatch_leaf p hp hm
      rw [← Option.some_inj.mp hy]
      exact this
    · rw [if_neg hcond] at hy
      cases hy

/-! ## Composing switches into evaluators and evaluators into runs -/

theorem interpTraverse_add (π : ℕ → Bool) (b : ℕ) :
    ∀ a i : ℕ, interpTraverse π i (a + b) = interpTraverse π (interpTraverse π i a) b := by
  intro a
  induction a with
  | zero =>
    intro i
    rw [Nat.zero_add]
    rfl
  | succ a ih =>
    intro i
    have h : a + 1 + b = (a + b) + 1 := by omega
    calc interpTraverse π i (a + 1 + b) = interpTraverse π (interpStep π i) (a + b) := by
          rw [h]
          exact rfl
      _ = interpTraverse π (interpTraverse π (interpStep π i) a) b := ih (interpStep π i)
      _ = interpTraverse π (interpTraverse π i (a + 1)) b := rfl

theorem interpTraverse_bounds (π : ℕ → Bool) (m : ℕ) :
    ∀ i : ℕ, (i + 1) * 2 ^ m ≤ interpTraverse π i m + 1 ∧
      interpTraverse π i m + 1 < (i + 2) * 2 ^ m := by
  induction m with
  | zero =>
    intro i
    simp only [interpTraverse, pow_zero, mul_one]
    omega
  | succ m ih =>
    intro i
    have hstep : interpTraverse π i (m + 1) = interpTraverse π (interpStep π i) m := rfl
    rw [hstep]
    have h1 := ih (interpStep π i)
    have hrange : 2 * i + 1 ≤ interpStep π i ∧ interpStep π i ≤ 2 * i + 2 := by
      rw [interpStep]
      split <;> omega
    have e1 : (i + 1) * 2 ^ (m + 1) = (2 * i + 2) * 2 ^ m := by rw [pow_succ]; ring
    have e2 : (i + 2) * 2 ^ (m + 1) = (2 * i + 4) * 2 ^ m := by rw [pow_succ]; ring
    have l1 : (2 * i + 2) * 2 ^ m ≤ (interpStep π i + 1) * 2 ^ m :=
      Nat.mul_le_mul_right _ (by omega)
    have l2 : (interpStep π i + 2) * 2 ^ m ≤ (2 * i + 4) * 2 ^ m :=
      Nat.mul_le_mul_right _ (by omega)
    omega

theorem interpTraverse_level (π : ℕ → Bool) {m i L : ℕ}
    (hlow : 2 ^ L ≤ i + 1) (hhigh : i + 1 < 2 ^ (L + 1)) :
    2 ^ (L + m) ≤ interpTraverse π i m + 1 ∧
      interpTraverse π i m + 1 < 2 ^ (L + m + 1) := by
  have hb := interpTraverse_bounds π m i
  constructor
  · calc (2 : ℕ) ^ (L + m) = 2 ^ L * 2 ^ m := pow_add 2 L m
      _ ≤ (i + 1) * 2 ^ m := Nat.mul_le_mul_right _ hlow
      _ ≤ interpTraverse π i m + 1 := hb.1
  · calc interpTraverse π i m + 1 < (i + 2) * 2 ^ m := hb.2
      _ ≤ 2 ^ (L + 1) * 2 ^ m := Nat.mul_le_mul_right _ (by omega)
      _ = 2 ^ (L + m + 1) := by rw [← pow_add]; congr 1; omega

theorem emitSubtreeSwitchesRecursively_eq {tree : DecisionTree_t} (hP : PerfectChildren tree)
    (sqrtSem lnSem : FloatVal → FloatVal) (dataSet : DataSet_t) {s : ℕ} (hs : s ≤ 6) :
    ∀ nested R : ℕ, emitSubtreeSwitchesRecursively sqrtSem lnSem tree dataSet s R nested =
      some (interpTraverse (nodePredicate sqrtSem lnSem tree dataSet) R ((nested + 1) * s)) := by
  intro nested
  induction nested with
  | zero =>
    intro R
    show subtreeSwitchDispatch sqrtSem lnSem tree dataSet R s = _
    rw [subtreeSwitchDispatch_eq hP sqrtSem lnSem dataSet R s hs]
    norm_num
  | succ nested ih =>
    intro R
    show (subtreeSwitchDispatch sqrtSem lnSem tree dataSet R s).bind _ = _
    rw [subtreeSwitchDispatch_eq hP sqrtSem lnSem dataSet R s hs, Option.some_bind, ih]
    congr 1
    have h : (nested + 1 + 1) * s = s + (nested + 1) * s := by ring
    rw [h, interpTraverse_add]

theorem emitSubtreeEvaluation_eq {tree : DecisionTree_t} (hP : PerfectChildren tree)
    (sqrtSem lnSem : FloatVal → FloatVal) (dataSet : DataSet_t) {fd sd : ℕ}
    (hs : sd ≤ 6) (hdvd : sd ∣ fd) (hfd : 0 < fd) (R : ℕ) :
    emitSubtreeEvaluation sqrtSem lnSem tree dataSet R fd sd =
      some (interpTraverse (nodePredicate sqrtSem lnSem tree dataSet) R fd) := by
  rw [emitSubtreeEvaluation,
    emitSubtreeSwitchesRecursively_eq hP sqrtSem lnSem dataSet hs (fd / sd - 1) R]
  congr 1
  have hsd0 : 0 < sd := by
    rcases Nat.eq_zero_or_pos sd with h0 | h0
    · subst h0
      rw [Nat.zero_dvd] at hdvd
      omega
    · exact h0
  have hle : sd ≤ fd := Nat.le_of_dvd hfd hdvd
  have hone : 1 ≤ fd / sd := (Nat.one_le_div_iff hsd0).mpr hle
  have : fd / sd - 1 + 1 = fd / sd := by omega
  rw [this, Nat.div_mul_cancel hdvd]

theorem foldl_add_eq_sum (g : ℕ → ℕ) (l : List ℕ) :
    ∀ a : ℕ, l.foldl (fun acc i => acc + g i) a = a + (l.map g).sum := by
  induction l with
  | nil =>
    intro a
    simp
  | cons b rest ih =>
    intro a
    rw [List.foldl_cons, ih, List.map_cons, List.sum_cons]
    omega

theorem ceilDiv_eq_div {D fd : ℕ} (hfd : 0 < fd) (hdvd : fd ∣ D) :
    (D + fd - 1) / fd = D / fd := by
  rcases hdvd with ⟨q, rfl⟩
  rcases Nat.eq_zero_or_pos q with hq | hq
  · subst hq
    rw [Nat.mul_zero, Nat.zero_add, Nat.zero_div, Nat.div_eq_of_lt (by omega)]
  · have h2 : fd * q + fd - 1 = (fd - 1) + fd * q := by omega
    rw [h2, Nat.add_mul_div_left _ _ hfd, Nat.div_eq_of_lt (by omega),
      Nat.mul_div_cancel_left q hfd, Nat.zero_add]

theorem log2_of_mem_levelBlock {L i : ℕ}
    (h : i ∈ List.range' (TreeNodes L) (PowerOf2 L)) : Log2 (i + 1) = L := by
  rw [List.mem_range'_1, TreeNodes, PowerOf2] at h
  have hpos : 0 < (2 : ℕ) ^ L := Nat.pos_pow_of_pos _ (by norm_num)
  have hexp : (2 : ℕ) ^ (L + 1) = 2 * 2 ^ L := by rw [pow_succ]; ring
  exact log2_eq_of (by omega) (by omega)

theorem mem_compiledNodeIndices {D fd : ℕ} (hfd : 0 < fd) (hdvd : fd ∣ D) (i : ℕ) :
    i ∈ compiledNodeIndices D fd ↔ i < TreeNodes D ∧ Log2 (i + 1) % fd = 0 := by
  rw [compiledNodeIndices, List.mem_flatMap, ceilDiv_eq_div hfd hdvd]
  constructor
  · rintro ⟨level, hlev, hi⟩
    rcases List.mem_map.mp hlev with ⟨k, hk, rfl⟩
    rw [List.mem_range] at hk
    have hlog := log2_of_mem_levelBlock hi
    rw [List.mem_range'_1, TreeNodes, PowerOf2] at hi
    have hkD : (k + 1) * fd ≤ D := by
      calc (k + 1) * fd ≤ D / fd * fd := Nat.mul_le_mul_right _ (by omega)
      _ = D := Nat.div_mul_cancel hdvd
    have hlink : (k + 1) * fd = k * fd + fd := by ring
    have hexp1 : (2 : ℕ) ^ (k * fd + 1) = 2 * 2 ^ (k * fd) := by rw [pow_succ]; ring
    have hexp2 : (2 : ℕ) ^ (k * fd + 1) ≤ 2 ^ D :=
      Nat.pow_le_pow_right (by norm_num) (by omega)
    constructor
    · rw [TreeNodes]
      omega
    · rw [hlog]
      exact Nat.mul_mod_left k fd
  · rintro ⟨hiN, hmod⟩
    have hlow : 2 ^ Log2 (i + 1) ≤ i + 1 := two_pow_log2_le (Nat.succ_ne_zero i)
    have hhigh : i + 1 < 2 ^ (Log2 (i + 1) + 1) := lt_two_pow_log2 (i + 1)
    have hLD : Log2 (i + 1) < D := by
      have hlt : (2 : ℕ) ^ Log2 (i + 1) < 2 ^ D := by
        rw [TreeNodes] at hiN
        omega
      exact (Nat.pow_lt_pow_iff_right (by norm_num)).mp hlt
    have hdvdL : fd ∣ Log2 (i + 1) := Nat.dvd_of_mod_eq_zero hmod
    refine ⟨Log2 (i + 1), ?_, ?_⟩
    · apply List.mem_map.mpr
      refine ⟨Log2 (i + 1) / fd, ?_, Nat.div_mul_cancel hdvdL⟩
      rw [List.mem_range]
      rcases hdvdL with ⟨a, ha⟩
      rcases hdvd with ⟨q, hq⟩
      rw [ha, hq, Nat.mul_comm fd a, Nat.mul_div_cancel a hfd, Nat.mul_comm fd q,
        Nat.mul_div_cancel q hfd]
      rw [ha, hq] at hLD
      have := (Nat.mul_lt_mul_right hfd).mp (by rwa [Nat.mul_comm fd a, Nat.mul_comm fd q] at hLD)
      exact this
    · rw [List.mem_range'_1, TreeNodes, PowerOf2]
      have hexp : (2 : ℕ) ^ (Log2 (i + 1) + 1) = 2 * 2 ^ Log2 (i + 1) := by rw [pow_succ]; ring
      omega

theorem getNumCompiledEvaluators_eq_sum (D fd : ℕ) :
    getNumCompiledEvaluators D fd =
      ((List.range ((D + fd - 1) / fd)).map (fun k => PowerOf2 (fd * k))).sum := by
  rw [getNumCompiledEvaluators, foldl_add_eq_sum, Nat.zero_add]

theorem compiledNodeIndices_length (D fd : ℕ) :
    (compiledNodeIndices D fd).length = getNumCompiledEvaluators D fd := by
  rw [compiledNodeIndices, List.length_flatMap, getNumCompiledEvaluators_eq_sum, List.map_map]
  congr 1
  apply List.map_congr_left
  intro k _
  show (List.range' (TreeNodes (k * fd)) (PowerOf2 (k * fd))).length = PowerOf2 (fd * k)
  rw [List.length_range', PowerOf2, PowerOf2, Nat.mul_comm]

theorem compiledNodeIndices_nodup (D fd : ℕ) (hfd : 0 < fd) :
    (compiledNodeIndices D fd).Nodup := by
  rw [compiledNodeIndices, List.nodup_flatMap]
  constructor
  · intro level _
    exact List.nodup_range' _ _
  · rw [List.pairwise_map]
    have hpw : List.Pairwise (· < ·) (List.range ((D + fd - 1) / fd)) :=
      List.pairwise_lt_range _
    apply List.Pairwise.imp ?_ hpw
    intro k1 k2 hk
    intro i hi1 hi2
    have h1 := log2_of_mem_levelBlock hi1
    have h2 := log2_of_mem_levelBlock hi2
    rw [h1] at h2
    have : k1 = k2 := Nat.eq_of_mul_eq_mul_right hfd h2
    omega

theorem runLoopO_interp {tree : DecisionTree_t} (hP : PerfectChildren tree)
    (sqrtSem lnSem : FloatVal → FloatVal) (dataSet : DataSet_t) {D fd sd : ℕ}
    (hs : sd ≤ 6) (hdvd1 : sd ∣ fd) (hfd : 0 < fd) (hdvd2 : fd ∣ D) :
    ∀ r i L : ℕ, L + r * fd = D → 2 ^ L ≤ i + 1 → i + 1 < 2 ^ (L + 1) → fd ∣ L →
      runLoopO
        (fun idx => if idx ∈ compiledNodeIndices D fd
          then emitSubtreeEvaluation sqrtSem lnSem tree dataSet idx fd sd else none)
        (TreeNodes D) r i =
      some (interpTraverse (nodePredicate sqrtSem lnSem tree dataSet) i (r * fd)) := by
  intro r
  induction r with
  | zero =>
    intro i L hL hlow hhigh _hdvdL
    have hNle : TreeNodes D ≤ i := by
      rw [TreeNodes]
      have : L = D := by omega
      rw [this] at hlow
      omega
    rw [runLoopO, if_neg (by omega), Nat.zero_mul]
    rfl
  | succ r ih =>
    intro i L hL hlow hhigh hdvdL
    have hr1 : (r + 1) * fd = r * fd + fd := by ring
    have hLD : L + 1 ≤ D := by omega
    have hexpLD : (2 : ℕ) ^ (L + 1) ≤ 2 ^ D := Nat.pow_le_pow_right (by norm_num) hLD
    have hiN : i < TreeNodes D := by
      rw [TreeNodes]
      omega
    have hLmod : Log2 (i + 1) % fd = 0 := by
      rw [log2_eq_of hlow hhigh]
      exact Nat.mod_eq_zero_of_dvd hdvdL
    rw [runLoopO, if_pos hiN,
      if_pos ((mem_compiledNodeIndices hfd hdvd2 i).mpr ⟨hiN, hLmod⟩),
      emitSubtreeEvaluation_eq hP sqrtSem lnSem dataSet hs hdvd1 hfd i, Option.some_bind]
    have hlev := @interpTraverse_level (nodePredicate sqrtSem lnSem tree dataSet)
      fd i L hlow hhigh
    rw [ih (interpTraverse (nodePredicate sqrtSem lnSem tree dataSet) i fd) (L + fd)
      (by omega) hlev.1 (by have := hlev.2; omega) (by exact Nat.dvd_add hdvdL (dvd_refl fd))]
    congr 1
    rw [hr1, Nat.add_comm (r * fd) fd, interpTraverse_add]

theorem interpRun_eq_interpTraverse (π : ℕ → Bool) {D : ℕ} :
    ∀ f i L : ℕ, L + f = D → 2 ^ L ≤ i + 1 → i + 1 < 2 ^ (L + 1) →
      interpRun π (TreeNodes D) f i = interpTraverse π i f := by
  intro f
  induction f with
  | zero =>
    intro i L _hL _hlow _hhigh
    rfl
  | succ f ih =>
    intro i L hL hlow hhigh
    have hLD : L + 1 ≤ D := by omega
    have hexpLD : (2 : ℕ) ^ (L + 1) ≤ 2 ^ D := Nat.pow_le_pow_right (by norm_num) hLD
    have hiN : i < TreeNodes D := by
      rw [TreeNodes]
      omega
    rw [interpRun, if_pos hiN]
    have hstep : 2 * i + 1 ≤ interpStep π i ∧ interpStep π i ≤ 2 * i + 2 := by
      rw [interpStep]
      split <;> omega
    have hexp : (2 : ℕ) ^ (L + 1 + 1) = 2 * 2 ^ (L + 1) := by rw [pow_succ]; ring
    have hexp0 : (2 : ℕ) ^ (L + 1) = 2 * 2 ^ L := by rw [pow_succ]; ring
    rw [ih (interpStep π i) (L + 1) (by omega) (by omega) (by omega)]
    rfl

theorem runAbstract_of_le (evaluators : ℕ → ℕ) (N : ℕ) :
    ∀ fuel idx : ℕ, N ≤ idx → runAbstract evaluators N fuel idx = idx := by
  intro fuel
  induction fuel with
  | zero => intro idx _h; rfl
  | succ fuel ih =>
    intro idx h
    rw [runAbstract, if_neg (by omega)]

theorem runAbstract_add (evaluators : ℕ → ℕ) (N g : ℕ) :
    ∀ f idx : ℕ, runAbstract evaluators N (f + g) idx =
      runAbstract evaluators N g (runAbstract evaluators N f idx) := by
  intro f
  induction f with
  | zero =>
    intro idx
    rw [Nat.zero_add]
    rfl
  | succ f ih =>
    intro idx
    have h : f + 1 + g = (f + g) + 1 := by omega
    by_cases hidx : idx < N
    · calc runAbstract evaluators N (f + 1 + g) idx
          = runAbstract evaluators N (f + g) (evaluators idx) := by
            rw [h, runAbstract, if_pos hidx]
      _ = runAbstract evaluators N g (runAbstract evaluators N f (evaluators idx)) :=
            ih (evaluators idx)
      _ = runAbstract evaluators N g (runAbstract evaluators N (f + 1) idx) := by
            rw [runAbstract, if_pos hidx]
    · rw [runAbstract_of_le evaluators N (f + 1 + g) idx (by omega),
        runAbstract_of_le evaluators N (f + 1) idx (by omega),
        runAbstract_of_le evaluators N g idx (by omega)]

theorem runAbstract_interp (π : ℕ → Bool) (evaluators : ℕ → ℕ) {D fd : ℕ}
    (hfd : 0 < fd) (hdvd : fd ∣ D) (hE : EvaluatorContract π evaluators D fd) :
    ∀ r i L : ℕ, L + r * fd = D → 2 ^ L ≤ i + 1 → i + 1 < 2 ^ (L + 1) → fd ∣ L →
      runAbstract evaluators (TreeNodes D) r i = interpTraverse π i (r * fd) := by
  intro r
  induction r with
  | zero =>
    intro i L _hL _hlow _hhigh _hdvdL
    rw [Nat.zero_mul]
    rfl
  | succ r ih =>
    intro i L hL hlow hhigh hdvdL
    have hr1 : (r + 1) * fd = r * fd + fd := by ring
    have hLD : L + 1 ≤ D := by omega
    have hexpLD : (2 : ℕ) ^ (L + 1) ≤ 2 ^ D := Nat.pow_le_pow_right (by norm_num) hLD
    have hiN : i < TreeNodes D := by
      rw [TreeNodes]
      omega
    have hLmod : Log2 (i + 1) % fd = 0 := by
      rw [log2_eq_of hlow hhigh]
      exact Nat.mod_eq_zero_of_dvd hdvdL
    rw [runAbstract, if_pos hiN, hE i hiN hLmod]
    have hlev := @interpTraverse_level π fd i L hlow hhigh
    rw [ih (interpTraverse π i fd) (L + fd) (by omega) hlev.1
      (by have := hlev.2; omega) (Nat.dvd_add hdvdL (dvd_refl fd))]
    rw [hr1, Nat.add_comm (r * fd) fd, interpTraverse_add]

theorem runTrace_interp (π : ℕ → Bool) (evaluators : ℕ → ℕ) {D fd : ℕ}
    (hfd : 0 < fd) (hdvd : fd ∣ D) (hE : EvaluatorContract π evaluators D fd) :
    ∀ j : ℕ, j ≤ D / fd →
      runTrace evaluators (TreeNodes D) j = interpTraverse π 0 (j * fd) := by
  intro j
  induction j with
  | zero =>
    intro _h
    rw [Nat.zero_mul]
    rfl
  | succ j ih =>
    intro hj
    have hjd : j ≤ D / fd := by omega
    have hjfd : j * fd + fd ≤ D := by
      have h1 : (j + 1) * fd ≤ D / fd * fd := Nat.mul_le_mul_right _ hj
      have h2 : D / fd * fd = D := Nat.div_mul_cancel hdvd
      have h3 : (j + 1) * fd = j * fd + fd := by ring
      omega
    have hlev := @interpTraverse_level π (j * fd) 0 0 (by norm_num) (by norm_num)
    rw [Nat.zero_add] at hlev
    have hexpD : (2 : ℕ) ^ (j * fd + 1) ≤ 2 ^ D :=
      Nat.pow_le_pow_right (by norm_num) (by omega)
    have hiN : interpTraverse π 0 (j * fd) < TreeNodes D := by
      rw [TreeNodes]
      have := hlev.2
      omega
    have hLmod : Log2 (interpTraverse π 0 (j * fd) + 1) % fd = 0 := by
      rw [log2_eq_of hlev.1 hlev.2]
      exact Nat.mod_eq_zero_of_dvd (dvd_mul_left fd j)
    show (if runTrace evaluators (TreeNodes D) j < TreeNodes D
        then evaluators (runTrace evaluators (TreeNodes D) j)
        else runTrace evaluators (TreeNodes D) j) = _
    rw [ih hjd, if_pos hiN, hE _ hiN hLmod, ← interpTraverse_add]
    congr 1
    ring

theorem runTrace_succ_of_le (evaluators : ℕ → ℕ) (N j : ℕ)
    (h : N ≤ runTrace evaluators N j) :
    runTrace evaluators N (j + 1) = runTrace evaluators N j := by
  show (if runTrace evaluators N j < N then evaluators (runTrace evaluators N j)
    else runTrace evaluators N j) = runTrace evaluators N j
  rw [if_neg (by omega)]

theorem runTrace_add_of_le (evaluators : ℕ → ℕ) (N j : ℕ)
    (h : N ≤ runTrace evaluators N j) :
    ∀ d : ℕ, runTrace evaluators N (j + d) = runTrace evaluators N j := by
  intro d
  induction d with
  | zero => rfl
  | succ d ih =>
    have hd : j + (d + 1) = (j + d) + 1 := by omega
    rw [hd, runTrace_succ_of_le _ _ _ (by rw [ih]; exact h), ih]

theorem subtreeInternalNodes_bounds {tree : DecisionTree_t} (hP : PerfectChildren tree)
    (k : ℕ) : ∀ n a : ℕ, a ∈ subtreeInternalNodes tree n k →
      ∃ j, j < k ∧ (n + 1) * 2 ^ j ≤ a + 1 ∧ a + 1 < (n + 2) * 2 ^ j := by
  induction k with
  | zero =>
    intro n a ha
    cases ha
  | succ k ih =>
    intro n a ha
    simp only [subtreeInternalNodes] at ha
    rcases List.mem_cons.mp ha with ha1 | ha1
    · refine ⟨0, by omega, ?_, ?_⟩ <;> rw [ha1, pow_zero] <;> omega
    · rcases List.mem_append.mp ha1 with ha2 | ha2
      · rw [(hP n).1] at ha2
        rcases ih (2 * n + 2) a ha2 with ⟨j, hj, hlo, hhi⟩
        refine ⟨j + 1, by omega, ?_, ?_⟩
        · calc (n + 1) * 2 ^ (j + 1) = (2 * n + 2) * 2 ^ j := by rw [pow_succ]; ring
          _ ≤ (2 * n + 2 + 1) * 2 ^ j := Nat.mul_le_mul_right _ (by omega)
          _ ≤ a + 1 := hlo
        · calc a + 1 < (2 * n + 2 + 2) * 2 ^ j := hhi
          _ = (n + 2) * 2 ^ (j + 1) := by rw [pow_succ]; ring
      · rw [(hP n).2] at ha2
        rcases ih (2 * n + 1) a ha2 with ⟨j, hj, hlo, hhi⟩
        refine ⟨j + 1, by omega, ?_, ?_⟩
        · calc (n + 1) * 2 ^ (j + 1) = (2 * n + 1 + 1) * 2 ^ j := by rw [pow_succ]; ring
          _ ≤ a + 1 := hlo
        · calc a + 1 < (2 * n + 1 + 2) * 2 ^ j := hhi
          _ ≤ (2 * n + 4) * 2 ^ j := Nat.mul_le_mul_right _ (by omega)
          _ = (n + 2) * 2 ^ (j + 1) := by rw [pow_succ]; ring

theorem subtreeInternalNodes_nodup {tree : DecisionTree_t} (hP : PerfectChildren tree)
    (k : ℕ) : ∀ n : ℕ, (subtreeInternalNodes tree n k).Nodup := by
  induction k with
  | zero =>
    intro n
    exact List.nodup_nil
  | succ k ih =>
    intro n
    simp only [subtreeInternalNodes]
    rw [List.nodup_cons, List.nodup_append]
    have htrue : ∀ a ∈ subtreeInternalNodes tree (tree n).TrueChildNodesIdx k,
        ∃ j, j < k ∧ (2 * n + 3) * 2 ^ j ≤ a + 1 ∧ a + 1 < (2 * n + 4) * 2 ^ j := by
      intro a ha
      rw [(hP n).1] at ha
      rcases subtreeInternalNodes_bounds hP k (2 * n + 2) a ha with ⟨j, hj, hlo, hhi⟩
      exact ⟨j, hj, hlo, hhi⟩
    have hfalse : ∀ a ∈ subtreeInternalNodes tree (tree n).FalseChildNodesIdx k,
        ∃ j, j < k ∧ (2 * n + 2) * 2 ^ j ≤ a + 1 ∧ a + 1 < (2 * n + 3) * 2 ^ j := by
      intro a ha
      rw [(hP n).2] at ha
      rcases subtreeInternalNodes_bounds hP k (2 * n + 1) a ha with ⟨j, hj, hlo, hhi⟩
      exact ⟨j, hj, hlo, hhi⟩
    refine ⟨?_, ih _, ih _, ?_⟩
    · intro hcon
      rcases List.mem_append.mp hcon with hcon1 | hcon1
      · rcases htrue n hcon1 with ⟨j, _hj, hlo, _hhi⟩
        have hpos : 1 ≤ (2 : ℕ) ^ j := Nat.one_le_two_pow
        have : (2 * n + 3) * 1 ≤ (2 * n + 3) * 2 ^ j := Nat.mul_le_mul_left _ hpos
        omega
      · rcases hfalse n hcon1 with ⟨j, _hj, hlo, _hhi⟩
        have hpos : 1 ≤ (2 : ℕ) ^ j := Nat.one_le_two_pow
        have : (2 * n + 2) * 1 ≤ (2 * n + 2) * 2 ^ j := Nat.mul_le_mul_left _ hpos
        omega
    · intro a ha1 ha2
      rcases htrue a ha1 with ⟨j1, _hj1, hlo1, hhi1⟩
      rcases hfalse a ha2 with ⟨j2, _hj2, hlo2, hhi2⟩
      by_cases hle : j2 ≤ j1
      · have h1 : (2 * n + 3) * 2 ^ j2 ≤ (2 * n + 3) * 2 ^ j1 :=
          Nat.mul_le_mul_left _ (Nat.pow_le_pow_right (by norm_num) hle)
        omega
      · have h1 : (2 * n + 4) * 2 ^ j1 ≤ (2 * n + 2) * 2 ^ j2 := by
          calc (2 * n + 4) * 2 ^ j1 ≤ (2 * n + 2) * (2 * 2 ^ j1) :=
              by have : 2 * n + 4 ≤ 2 * (2 * n + 2) := by omega
                 calc (2 * n + 4) * 2 ^ j1 ≤ 2 * (2 * n + 2) * 2 ^ j1 :=
                     Nat.mul_le_mul_right _ this
                 _ = (2 * n + 2) * (2 * 2 ^ j1) := by ring
          _ = (2 * n + 2) * 2 ^ (j1 + 1) := by rw [pow_succ]; ring
          _ ≤ (2 * n + 2) * 2 ^ j2 :=
              Nat.mul_le_mul_left _ (Nat.pow_le_pow_right (by norm_num) (by omega))
        omega

theorem subtreeInternalNodes_length (tree : DecisionTree_t) (k : ℕ) :
    ∀ n : ℕ, (subtreeInternalNodes tree n k).length = TreeNodes k := by
  induction k with
  | zero =>
    intro n
    rfl
  | succ k ih =>
    intro n
    simp only [subtreeInternalNodes]
    rw [List.length_cons, List.length_append, ih, ih, TreeNodes, TreeNodes]
    have hpos : 1 ≤ (2 : ℕ) ^ k := Nat.one_le_two_pow
    have hexp : (2 : ℕ) ^ (k + 1) = 2 * 2 ^ k := by rw [pow_succ]; ring
    omega

theorem subtreeInternalNodes_eq_offsets {tree : DecisionTree_t}
    (hP : PerfectChildren tree) (R k : ℕ) :
    ∀ a : ℕ, a ∈ subtreeInternalNodes tree R k ↔
      a ∈ (List.range (TreeNodes k)).map (getNodeIdxForSubtreeBitOffset R k) := by
  have hsub : subtreeInternalNodes tree R k ⊆
      (List.range (TreeNodes k)).map (getNodeIdxForSubtreeBitOffset R k) := by
    intro a ha
    have himg := subtreeInternalNodes_image hP R k k 0
      (by rw [log2_one]; omega) a (by rw [getNodeIdx_zero]; exact ha)
    rcases himg with ⟨b, hb, hab⟩
    exact List.mem_map.mpr ⟨b, List.mem_range.mpr hb, hab.symm⟩
  have hndA := subtreeInternalNodes_nodup hP k R
  have hlenA := subtreeInternalNodes_length tree k R
  have hlenB : ((List.range (TreeNodes k)).map (getNodeIdxForSubtreeBitOffset R k)).length =
      TreeNodes k := by
    rw [List.length_map, List.length_range]
  have hperm : List.Perm (subtreeInternalNodes tree R k)
      ((List.range (TreeNodes k)).map (getNodeIdxForSubtreeBitOffset R k)) :=
    (hndA.subperm hsub).perm_of_length_le (by omega)
  exact fun a => hperm.mem_iff

theorem variants_or_form {n tmpl w : ℕ} {m : List (ℕ × Bool)}
    (h : w ∈ buildCanonicalConditionVectorVariants n tmpl m) :
    ∃ s : ℕ, w = tmpl ||| s ∧ ∀ t, s.testBit t = true → t ∈ variableBitOffsetsOf n m := by
  rw [buildCanonicalConditionVectorVariants] at h
  by_cases hE : (variableBitOffsetsOf n m).isEmpty = true
  · rw [if_pos hE, List.mem_singleton] at h
    refine ⟨0, by simp [h], ?_⟩
    intro t ht
    rw [Nat.zero_testBit] at ht
    cases ht
  · rw [if_neg hE] at h
    exact variantsRec_or_form h

theorem buildPaths_get_fst (tree : DecisionTree_t) (bo : ℕ → ℕ) (k R : ℕ)
    (i : ℕ) (h : i < (buildSubtreeLeafNodePathsBitsMapsRecursively tree bo R k).length) :
    ((buildSubtreeLeafNodePathsBitsMapsRecursively tree bo R k).get ⟨i, h⟩).1 =
      subtreeLeafByRank tree R k i := by
  have hmap := buildPaths_map_fst tree bo k R
  have hlen := buildPaths_length tree bo k R
  have hik : i < 2 ^ k := by omega
  have h2 : i < ((buildSubtreeLeafNodePathsBitsMapsRecursively tree bo R k).map
      Prod.fst).length := by
    rw [List.length_map]
    exact h
  have e1 : ((buildSubtreeLeafNodePathsBitsMapsRecursively tree bo R k).map
      Prod.fst)[i] = ((buildSubtreeLeafNodePathsBitsMapsRecursively tree bo R k).get ⟨i, h⟩).1 := by
    rw [List.getElem_map, List.get_eq_getElem]
  rw [← e1]
  have e2 := List.getElem_of_eq hmap h2
  rw [e2, List.getElem_map, List.getElem_range]

theorem buildPaths_matches_incompat {tree : DecisionTree_t} (hP : PerfectChildren tree)
    (bo : ℕ → ℕ) (k R : ℕ) (σ : ℕ → Bool) (i j : ℕ)
    (hi : i < (buildSubtreeLeafNodePathsBitsMapsRecursively tree bo R k).length)
    (hj : j < (buildSubtreeLeafNodePathsBitsMapsRecursively tree bo R k).length)
    (hmi : matchesMap σ ((buildSubtreeLeafNodePathsBitsMapsRecursively tree bo R k).get
      ⟨i, hi⟩).2)
    (hmj : matchesMap σ ((buildSubtreeLeafNodePathsBitsMapsRecursively tree bo R k).get
      ⟨j, hj⟩).2) :
    i = j := by
  have hinterp := buildPaths_match_interp hP bo σ (fun a => σ (bo a)) k R
    (fun a _ => rfl)
  have h1 := hinterp _ (List.get_mem _ _ hi) hmi
  have h2 := hinterp _ (List.get_mem _ _ hj) hmj
  rw [buildPaths_get_fst tree bo k R i hi] at h1
  rw [buildPaths_get_fst tree bo k R j hj] at h2
  have hlen := buildPaths_length tree bo k R
  exact subtreeLeafByRank_inj hP k R i j (by omega) (by omega) (by rw [h1, h2])

/-! ## Claim theorems -/

/-- C1: for every perfect decision tree and every input vector, the terminal
leaf index produced by the compiled evaluation scheme (the condition-vector
and switch runtime semantics of emitSubtreeSwitchesRecursively, iterated by
CompiledResolver::run) equals the leaf index produced by the reference
interpretive traversal of the tree on the input (starting at node 0,
repeatedly taking the true child 2i+2 when the node predicate
comparator(op(x[featureIdx]), bias) holds and the false child 2i+1
otherwise, until a leaf in [N, N+2^D) is reached), under the spec's
configuration invariants: switchDepth divides functionDepth, functionDepth
divides the tree depth, functionDepth is positive, and switchDepth ≤ 6 (the
64-bit condition-vector bound). -/
theorem C1_compiled_equals_interpreter {tree : DecisionTree_t}
    (hP : PerfectChildren tree) (sqrtSem lnSem : FloatVal → FloatVal)
    (dataSet : DataSet_t) {D fd sd : ℕ} (hs : sd ≤ 6) (hdvd1 : sd ∣ fd)
    (hfd : 0 < fd) (hdvd2 : fd ∣ D) :
    runCompiled sqrtSem lnSem tree dataSet D fd sd =
      some (interpRun (nodePredicate sqrtSem lnSem tree dataSet) (TreeNodes D) D 0) := by
  rw [runCompiled]
  have h1 := runLoopO_interp hP sqrtSem lnSem dataSet hs hdvd1 hfd hdvd2 (D / fd) 0 0
    (by rw [Nat.zero_add]; exact Nat.div_mul_cancel hdvd2) (by norm_num) (by norm_num)
    (dvd_zero fd)
  rw [h1]
  have h2 := interpRun_eq_interpTraverse (nodePredicate sqrtSem lnSem tree dataSet)
    D 0 0 (Nat.zero_add D) (by norm_num) (by norm_num)
  rw [h2, Nat.div_mul_cancel hdvd2]

/-- C1 witness: the depth-2 sample tree with a concrete input, compiled with
functionDepth 2 and switchDepth 1. -/
theorem C1_witness :
    PerfectChildren sampleTree ∧ (1 : ℕ) ≤ 6 ∧ (1 : ℕ) ∣ 2 ∧ (0 : ℕ) < 2 ∧ (2 : ℕ) ∣ 2 ∧
      runCompiled id id sampleTree sampleDataSet 2 2 1 =
        some (interpRun (nodePredicate id id sampleTree sampleDataSet) (TreeNodes 2) 2 0) :=
  ⟨fun i => ⟨rfl, rfl⟩, by norm_num, ⟨2, rfl⟩, by norm_num, ⟨1, rfl⟩,
    @C1_compiled_equals_interpreter sampleTree (fun i => ⟨rfl, rfl⟩) id id sampleDataSet
      2 2 1 (by norm_num) ⟨2, rfl⟩ (by norm_num) ⟨1, rfl⟩⟩

/-- C5: for every perfect tree of depth D and every evaluator family
satisfying the compiled-artifact contract, the run loop starting from index
0 terminates within D/functionDepth iterations (extra fuel does not change
the result), and the returned index lies in the leaf range
[N, N + 2^D) with N = 2^D − 1. -/
theorem C5_run_terminates_in_leaf_range (π : ℕ → Bool) (evaluators : ℕ → ℕ)
    {D fd : ℕ} (hfd : 0 < fd) (hdvd : fd ∣ D)
    (hE : EvaluatorContract π evaluators D fd) :
    TreeNodes D ≤ runAbstract evaluators (TreeNodes D) (D / fd) 0 ∧
      runAbstract evaluators (TreeNodes D) (D / fd) 0 < TreeNodes D + PowerOf2 D ∧
      ∀ fuel : ℕ, D / fd ≤ fuel →
        runAbstract evaluators (TreeNodes D) fuel 0 =
          runAbstract evaluators (TreeNodes D) (D / fd) 0 := by
  have hrun := runAbstract_interp π evaluators hfd hdvd hE (D / fd) 0 0
    (by rw [Nat.zero_add]; exact Nat.div_mul_cancel hdvd) (by norm_num) (by norm_num)
    (dvd_zero fd)
  rw [Nat.div_mul_cancel hdvd] at hrun
  have hlev := @interpTraverse_level π D 0 0 (by norm_num) (by norm_num)
  rw [Nat.zero_add] at hlev
  have hexp : (2 : ℕ) ^ (D + 1) = 2 * 2 ^ D := by rw [pow_succ]; ring
  refine ⟨?_, ?_, ?_⟩
  · rw [hrun, TreeNodes]
    have := hlev.1
    omega
  · rw [hrun, TreeNodes, PowerOf2]
    have h1 := hlev.1
    have h2 := hlev.2
    omega
  · intro fuel hfuel
    have h1 : fuel = D / fd + (fuel - D / fd) := by omega
    rw [h1, runAbstract_add]
    apply runAbstract_of_le
    rw [hrun, TreeNodes]
    have := hlev.1
    omega

/-- C5 witness: depth-2 tree, functionDepth 1, the evaluator family that
always takes the true child. -/
theorem C5_witness :
    (0 : ℕ) < 1 ∧ (1 : ℕ) ∣ 2 ∧
      EvaluatorContract (fun _ => true) (fun i => 2 * i + 2) 2 1 ∧
      (TreeNodes 2 ≤ runAbstract (fun i => 2 * i + 2) (TreeNodes 2) (2 / 1) 0 ∧
        runAbstract (fun i => 2 * i + 2) (TreeNodes 2) (2 / 1) 0 <
          TreeNodes 2 + PowerOf2 2 ∧
        ∀ fuel : ℕ, 2 / 1 ≤ fuel →
          runAbstract (fun i => 2 * i + 2) (TreeNodes 2) fuel 0 =
            runAbstract (fun i => 2 * i + 2) (TreeNodes 2) (2 / 1) 0) :=
  ⟨by norm_num, ⟨2, rfl⟩, fun i _ _ => rfl,
    @C5_run_terminates_in_leaf_range (fun _ => true) (fun i => 2 * i + 2) 2 1
      (by norm_num) ⟨2, rfl⟩ (fun i _ _ => rfl)⟩

/-- C6 counterexample: for a subtree switch over a 1-level subtree
(numInternal = 1), the emitted case constants have integer width
numInternal + 1 = 2, which differs from the 64-bit width of the condition
vector being switched on, so the claim fails as stated. -/
theorem C6_counterexample :
    ¬ (conditionVectorAllocaWidth ≥ TreeNodes 1 + 1 ∧
      switchCaseTypeWidth (TreeNodes 1) = conditionVectorAllocaWidth) := by
  decide

/-- C6 amended: the stack slot for the condition vector is 64 bits wide,
which is at least numInternal + 1 for every switchDepth ≤ 6; the case
constants have integer width numInternal + 1, which equals the switched
value's 64-bit width exactly when switchDepth = 6 (numInternal = 63). -/
theorem C6_amended (sd : ℕ) (hsd : sd ≤ 6) :
    conditionVectorAllocaWidth ≥ TreeNodes sd + 1 ∧
      (switchCaseTypeWidth (TreeNodes sd) = conditionVectorAllocaWidth ↔ sd = 6) := by
  interval_cases sd <;> decide

/-- C6 witness: the amended statement at switchDepth 6. -/
theorem C6_witness :
    (6 : ℕ) ≤ 6 ∧
      (conditionVectorAllocaWidth ≥ TreeNodes 6 + 1 ∧
        (switchCaseTypeWidth (TreeNodes 6) = conditionVectorAllocaWidth ↔ 6 = 6)) :=
  ⟨by norm_num, C6_amended 6 (by norm_num)⟩

/-- C7 counterexample: a pipeline whose only emitted function fails the IR
verifier (verifyFunction returns true, meaning the function is broken) still
submits the module to the JIT, so verification failure does not stop the
compileEvaluators pipeline as claimed. -/
theorem C7_counterexample :
    ¬ ((∃ i ∈ [(0 : ℕ)], (fun _ => true : ℕ → Bool) i = true) →
      (compileEvaluatorsPipeline (fun _ => true) [0]).2 = false) := by
  decide

/-- C7 amended: verifyFunction is invoked for every emitted function but its
boolean result is discarded; the pipeline's behaviour is independent of the
verifier verdicts and the module is always submitted to the JIT. -/
theorem C7_amended (verifier1 verifier2 : ℕ → Bool) (nodeIdxs : List ℕ) :
    compileEvaluatorsPipeline verifier1 nodeIdxs =
        compileEvaluatorsPipeline verifier2 nodeIdxs ∧
      (compileEvaluatorsPipeline verifier1 nodeIdxs).2 = true :=
  ⟨rfl, rfl⟩

/-- C9: if a node's loaded and op-transformed feature value is NaN, the node
predicate evaluates to false — under both comparators — because the emitted
comparisons use ordered float semantics; a NaN input therefore routes
traversal to the false branch. -/
theorem C9_nan_routes_false (sqrtSem lnSem : FloatVal → FloatVal) (node : TreeNode)
    (dataSet : DataSet_t)
    (h : emitOperator sqrtSem lnSem node.Op (dataSet node.DataSetFeatureIdx) = none) :
    emitSingleNodeEvaluaton sqrtSem lnSem node dataSet = false ∧
      ∀ (comp : ComparatorType) (bias : FloatVal), emitComparison comp bias none = false := by
  constructor
  · rw [emitSingleNodeEvaluaton, h]
    cases hc : node.Comp <;> cases hb : node.Bias <;> rw [emitComparison] <;> rfl
  · intro comp bias
    cases comp <;> cases bias <;> rfl

/-- C9 witness: the root node of the sample tree on an all-NaN input. -/
theorem C9_witness :
    emitOperator id id (sampleTree 0).Op (sampleNaNDataSet (sampleTree 0).DataSetFeatureIdx) =
        none ∧
      (emitSingleNodeEvaluaton id id (sampleTree 0) sampleNaNDataSet = false ∧
        ∀ (comp : ComparatorType) (bias : FloatVal),
          emitComparison comp bias none = false) :=
  ⟨rfl, C9_nan_routes_false id id (sampleTree 0) sampleNaNDataSet rfl⟩

/-- C4: getNodeIdxForSubtreeBitOffset coincides with the closed formula of
spec §4.1, and applied to the bit offsets 0 .. 2^k − 2 of a k-level subtree
rooted at R it yields 2^k − 1 pairwise distinct global indices, all of which
are internal nodes of the subtree rooted at R. -/
theorem C4_index_arithmetic {tree : DecisionTree_t} (hP : PerfectChildren tree)
    (R k : ℕ) :
    (∀ b : ℕ, getNodeIdxForSubtreeBitOffset R k b = specNodeIdxFormula R b) ∧
      ((List.range (TreeNodes k)).map (getNodeIdxForSubtreeBitOffset R k)).Nodup ∧
      ∀ b, b < TreeNodes k →
        getNodeIdxForSubtreeBitOffset R k b ∈ subtreeInternalNodes tree R k := by
  refine ⟨fun b => rfl, ?_, ?_⟩
  · exact (List.nodup_range _).map (fun a b h => getNodeIdx_inj h)
  · intro b hb
    rw [subtreeInternalNodes_eq_offsets hP R k]
    exact List.mem_map.mpr ⟨b, List.mem_range.mpr hb, rfl⟩

/-- C4 witness: the 2-level subtree rooted at node 1 of the sample tree. -/
theorem C4_witness :
    PerfectChildren sampleTree ∧
      ((∀ b : ℕ, getNodeIdxForSubtreeBitOffset 1 2 b = specNodeIdxFormula 1 b) ∧
        ((List.range (TreeNodes 2)).map (getNodeIdxForSubtreeBitOffset 1 2)).Nodup ∧
        ∀ b, b < TreeNodes 2 →
          getNodeIdxForSubtreeBitOffset 1 2 b ∈ subtreeInternalNodes sampleTree 1 2) :=
  ⟨fun i => ⟨rfl, rfl⟩, @C4_index_arithmetic sampleTree (fun i => ⟨rfl, rfl⟩) 1 2⟩

/-- C8: for every functionDepth dividing the tree depth, compilation emits
exactly one evaluator per internal node on each level that is a multiple of
functionDepth and no others (the emitted node-index list is duplicate-free
and contains exactly the internal indices whose level is a multiple of
functionDepth), and getNumCompiledEvaluators equals both the closed sum
Σ_{k < D/fd} 2^(k·fd) and the number of emitted evaluators. -/
theorem C8_evaluator_census {D fd : ℕ} (hfd : 0 < fd) (hdvd : fd ∣ D) :
    getNumCompiledEvaluators D fd =
        ((List.range (D / fd)).map (fun k => PowerOf2 (k * fd))).sum ∧
      getNumCompiledEvaluators D fd = (compiledNodeIndices D fd).length ∧
      (compiledNodeIndices D fd).Nodup ∧
      ∀ i : ℕ, i ∈ compiledNodeIndices D fd ↔
        i < TreeNodes D ∧ Log2 (i + 1) % fd = 0 := by
  refine ⟨?_, (compiledNodeIndices_length D fd).symm, compiledNodeIndices_nodup D fd hfd,
    mem_compiledNodeIndices hfd hdvd⟩
  rw [getNumCompiledEvaluators_eq_sum, ceilDiv_eq_div hfd hdvd]
  congr 1
  apply List.map_congr_left
  intro k _
  rw [PowerOf2, PowerOf2, Nat.mul_comm]

/-- C8 witness: depth 4 with functionDepth 2. -/
theorem C8_witness :
    (0 : ℕ) < 2 ∧ (2 : ℕ) ∣ 4 ∧
      (getNumCompiledEvaluators 4 2 =
          ((List.range (4 / 2)).map (fun k => PowerOf2 (k * 2))).sum ∧
        getNumCompiledEvaluators 4 2 = (compiledNodeIndices 4 2).length ∧
        (compiledNodeIndices 4 2).Nodup ∧
        ∀ i : ℕ, i ∈ compiledNodeIndices 4 2 ↔
          i < TreeNodes 4 ∧ Log2 (i + 1) % 2 = 0) :=
  ⟨by norm_num, ⟨2, rfl⟩, @C8_evaluator_census 4 2 (by norm_num) ⟨2, rfl⟩⟩

/-- C10: in every run over evaluators satisfying the compiled-artifact
contract, each index the loop reaches while it is still internal lies on a
tree level that is a multiple of functionDepth, and is one of the node
indices for which compileEvaluators registered an evaluator — so the map
lookup in the run loop never fails. -/
theorem C10_lookups_never_fail (π : ℕ → Bool) (evaluators : ℕ → ℕ)
    {D fd : ℕ} (hfd : 0 < fd) (hdvd : fd ∣ D)
    (hE : EvaluatorContract π evaluators D fd) (j : ℕ)
    (hj : runTrace evaluators (TreeNodes D) j < TreeNodes D) :
    Log2 (runTrace evaluators (TreeNodes D) j + 1) % fd = 0 ∧
      runTrace evaluators (TreeNodes D) j ∈ compiledNodeIndices D fd := by
  have hDfd_end : TreeNodes D ≤ runTrace evaluators (TreeNodes D) (D / fd) := by
    rw [runTrace_interp π evaluators hfd hdvd hE (D / fd) le_rfl,
      Nat.div_mul_cancel hdvd]
    have hlev := @interpTraverse_level π D 0 0 (by norm_num) (by norm_num)
    rw [Nat.zero_add] at hlev
    rw [TreeNodes]
    have := hlev.1
    omega
  have hjlt : j < D / fd := by
    rcases Nat.lt_or_ge j (D / fd) with h | h
    · exact h
    · exfalso
      have hstab := runTrace_add_of_le evaluators (TreeNodes D) (D / fd) hDfd_end
        (j - D / fd)
      rw [show D / fd + (j - D / fd) = j from by omega] at hstab
      rw [hstab] at hj
      omega
  have htr := runTrace_interp π evaluators hfd hdvd hE j (by omega)
  have hlev := @interpTraverse_level π (j * fd) 0 0 (by norm_num) (by norm_num)
  rw [Nat.zero_add] at hlev
  have hlog : Log2 (runTrace evaluators (TreeNodes D) j + 1) = j * fd := by
    rw [htr]
    exact log2_eq_of hlev.1 hlev.2
  refine ⟨?_, ?_⟩
  · rw [hlog]
    exact Nat.mod_eq_zero_of_dvd (dvd_mul_left fd j)
  · refine (mem_compiledNodeIndices hfd hdvd _).mpr ⟨hj, ?_⟩
    rw [hlog]
    exact Nat.mod_eq_zero_of_dvd (dvd_mul_left fd j)

/-- C10 witness: depth-2 tree, functionDepth 1, the always-true evaluator
family, at the second loop iteration. -/
theorem C10_witness :
    (0 : ℕ) < 1 ∧ (1 : ℕ) ∣ 2 ∧
      EvaluatorContract (fun _ => true) (fun i => 2 * i + 2) 2 1 ∧
      runTrace (fun i => 2 * i + 2) (TreeNodes 2) 1 < TreeNodes 2 ∧
      (Log2 (runTrace (fun i => 2 * i + 2) (TreeNodes 2) 1 + 1) % 1 = 0 ∧
        runTrace (fun i => 2 * i + 2) (TreeNodes 2) 1 ∈ compiledNodeIndices 2 1) :=
  ⟨by norm_num, ⟨2, rfl⟩, fun i _ _ => rfl, by decide,
    @C10_lookups_never_fail (fun _ => true) (fun i => 2 * i + 2) 2 1 (by norm_num)
      ⟨2, rfl⟩ (fun i _ _ => rfl) 1 (by decide)⟩

theorem buildPaths_root_keys {tree : DecisionTree_t} (hP : PerfectChildren tree)
    (R k : ℕ) :
    ∀ p ∈ buildSubtreeLeafNodePathsBitsMapsRecursively tree
        (bitOffsetOfNode R k (TreeNodes k)) R k,
      (p.2.map Prod.fst).Nodup ∧ (∀ e ∈ p.2, e.1 < TreeNodes k) ∧ p.2.length = k := by
  intro p hp
  have hanchor : Log2 (0 + 1) + k ≤ k := by
    simp only [Nat.zero_add, log2_one]
    omega
  have hkf := buildPaths_keys hP R k k 0 hanchor
  rw [getNodeIdx_zero] at hkf
  rcases hkf p hp with ⟨hsort, hbnd, hlen⟩
  refine ⟨hsort.nodup, ?_, hlen⟩
  intro e he
  have hb := (hbnd e.1 (List.mem_map.mpr ⟨e, he, rfl⟩)).2
  simp only [Nat.zero_add, log2_one] at hb
  rw [TreeNodes]
  omega

/-- C2: for every k-level subtree of a perfect tree, the variant enumerator
produces, for each of the 2^k leaf descriptors, exactly 2^v variants, where
v is the size of the descriptor's variable bit set (v = numInternal − k for
the subtree's numInternal = 2^k − 1 internal nodes); each variant equals the
leaf's fixed template OR-ed with some subset of the variable bits; and
across all leaves the variant sets are pairwise disjoint with union
{0, …, 2^numInternal − 1}. -/
theorem C2_variant_partition {tree : DecisionTree_t} (hP : PerfectChildren tree)
    (R k : ℕ) :
    (∀ p ∈ buildSubtreeLeafNodePathsBitsMapsRecursively tree
        (bitOffsetOfNode R k (TreeNodes k)) R k,
      (buildCanonicalConditionVectorVariants (TreeNodes k)
          (buildFixedConditionVectorTemplate p.2) p.2).length =
        PowerOf2 (variableBitOffsetsOf (TreeNodes k) p.2).length ∧
      (variableBitOffsetsOf (TreeNodes k) p.2).length = TreeNodes k - k ∧
      (∀ w ∈ buildCanonicalConditionVectorVariants (TreeNodes k)
          (buildFixedConditionVectorTemplate p.2) p.2,
        ∃ s : ℕ, w = buildFixedConditionVectorTemplate p.2 ||| s ∧
          ∀ t : ℕ, s.testBit t = true → t ∈ variableBitOffsetsOf (TreeNodes k) p.2)) ∧
    List.Pairwise (fun p q => ∀ cv : ℕ,
        cv ∈ buildCanonicalConditionVectorVariants (TreeNodes k)
          (buildFixedConditionVectorTemplate p.2) p.2 →
        cv ∉ buildCanonicalConditionVectorVariants (TreeNodes k)
          (buildFixedConditionVectorTemplate q.2) q.2)
      (buildSubtreeLeafNodePathsBitsMapsRecursively tree
        (bitOffsetOfNode R k (TreeNodes k)) R k) ∧
    (∀ cv : ℕ, cv < PowerOf2 (TreeNodes k) ↔
      ∃ p ∈ buildSubtreeLeafNodePathsBitsMapsRecursively tree
          (bitOffsetOfNode R k (TreeNodes k)) R k,
        cv ∈ buildCanonicalConditionVectorVariants (TreeNodes k)
          (buildFixedConditionVectorTemplate p.2) p.2) := by
  have hfacts := buildPaths_root_keys hP R k
  refine ⟨?_, ?_, ?_⟩
  · intro p hp
    rcases hfacts p hp with ⟨hnd, hkeys, hlen⟩
    refine ⟨?_, ?_, fun w hw => variants_or_form hw⟩
    · rw [length_buildVariants, PowerOf2]
    · rw [length_variableBitOffsets hnd hkeys, List.length_map, hlen]
  · rw [List.pairwise_iff_get]
    intro i j hij cv hcvi hcvj
    have hfi := hfacts _ (List.get_mem _ _ i.isLt)
    have hfj := hfacts _ (List.get_mem _ _ j.isLt)
    have hmi := ((mem_buildVariants_iff hfi.1 hfi.2.1 cv).mp hcvi).2
    have hmj := ((mem_buildVariants_iff hfj.1 hfj.2.1 cv).mp hcvj).2
    have heq := buildPaths_matches_incompat hP (bitOffsetOfNode R k (TreeNodes k)) k R
      (cv.testBit) i.val j.val i.isLt j.isLt hmi hmj
    have hlt : i.val < j.val := hij
    omega
  · intro cv
    constructor
    · intro hcv
      rcases buildPaths_exists_match tree (bitOffsetOfNode R k (TreeNodes k))
        (cv.testBit) k R with ⟨p, hp, hm⟩
      rcases hfacts p hp with ⟨hnd, hkeys, _⟩
      refine ⟨p, hp, (mem_buildVariants_iff hnd hkeys cv).mpr ⟨?_, hm⟩⟩
      rwa [PowerOf2] at hcv
    · rintro ⟨p, hp, hcv⟩
      rcases hfacts p hp with ⟨hnd, hkeys, _⟩
      have := ((mem_buildVariants_iff hnd hkeys cv).mp hcv).1
      rwa [PowerOf2]

/-- C2 witness: the 1-level subtree rooted at node 0 of the sample tree. -/
theorem C2_witness :
    PerfectChildren sampleTree ∧
      ∀ cv : ℕ, cv < PowerOf2 (TreeNodes 1) ↔
        ∃ p ∈ buildSubtreeLeafNodePathsBitsMapsRecursively sampleTree
            (bitOffsetOfNode 0 1 (TreeNodes 1)) 0 1,
          cv ∈ buildCanonicalConditionVectorVariants (TreeNodes 1)
            (buildFixedConditionVectorTemplate p.2) p.2 :=
  ⟨fun i => ⟨rfl, rfl⟩,
    (@C2_variant_partition sampleTree (fun i => ⟨rfl, rfl⟩) 0 1).2.2⟩

/-- C3: for every k-level subtree of a perfect tree, the paths-bits builder
appends exactly 2^k leaf descriptors; each descriptor's bit map has exactly
k entries with pairwise distinct bit offsets; the descriptors appear in the
deterministic true-first, false-second recursive order (the i-th leaf index
is the rank-i leaf of that order); and the bit patterns, restricted to each
descriptor's own bit set, realise all 2^k boolean combinations: every bit
assignment is matched by some descriptor, and no assignment matches two
distinct descriptors. -/
theorem C3_path_bitmap_invariants {tree : DecisionTree_t} (hP : PerfectChildren tree)
    (R k : ℕ) :
    (buildSubtreeLeafNodePathsBitsMapsRecursively tree
        (bitOffsetOfNode R k (TreeNodes k)) R k).length = PowerOf2 k ∧
    (∀ p ∈ buildSubtreeLeafNodePathsBitsMapsRecursively tree
        (bitOffsetOfNode R k (TreeNodes k)) R k,
      p.2.length = k ∧ (p.2.map Prod.fst).Nodup) ∧
    (buildSubtreeLeafNodePathsBitsMapsRecursively tree
        (bitOffsetOfNode R k (TreeNodes k)) R k).map Prod.fst =
      (List.range (PowerOf2 k)).map (subtreeLeafByRank tree R k) ∧
    (∀ σ : ℕ → Bool, ∃ p ∈ buildSubtreeLeafNodePathsBitsMapsRecursively tree
        (bitOffsetOfNode R k (TreeNodes k)) R k, matchesMap σ p.2) ∧
    List.Pairwise (fun p q => ¬ ∃ σ : ℕ → Bool, matchesMap σ p.2 ∧ matchesMap σ q.2)
      (buildSubtreeLeafNodePathsBitsMapsRecursively tree
        (bitOffsetOfNode R k (TreeNodes k)) R k) := by
  have hfacts := buildPaths_root_keys hP R k
  refine ⟨?_, ?_, ?_, ?_, ?_⟩
  · rw [buildPaths_length, PowerOf2]
  · intro p hp
    rcases hfacts p hp with ⟨hnd, _hkeys, hlen⟩
    exact ⟨hlen, hnd⟩
  · rw [buildPaths_map_fst, PowerOf2]
  · exact fun σ => buildPaths_exists_match tree _ σ k R
  · rw [List.pairwise_iff_get]
    rintro i j hij ⟨σ, hmi, hmj⟩
    have heq := buildPaths_matches_incompat hP (bitOffsetOfNode R k (TreeNodes k)) k R
      σ i.val j.val i.isLt j.isLt hmi hmj
    have hlt : i.val < j.val := hij
    omega

/-- C3 witness: the 2-level subtree rooted at node 0 of the sample tree. -/
theorem C3_witness :
    PerfectChildren sampleTree ∧
      (buildSubtreeLeafNodePathsBitsMapsRecursively sampleTree
          (bitOffsetOfNode 0 2 (TreeNodes 2)) 0 2).length = PowerOf2 2 ∧
      (buildSubtreeLeafNodePathsBitsMapsRecursively sampleTree
          (bitOffsetOfNode 0 2 (TreeNodes 2)) 0 2).map Prod.fst =
        (List.range (PowerOf2 2)).map (subtreeLeafByRank sampleTree 0 2) :=
  ⟨fun i => ⟨rfl, rfl⟩,
    (@C3_path_bitmap_invariants sampleTree (fun i => ⟨rfl, rfl⟩) 0 2).1,
    (@C3_path_bitmap_invariants sampleTree (fun i => ⟨rfl, rfl⟩) 0 2).2.2.1⟩
